import Mathlib

/-!
Verification of the circular singly-linked ring container `LinkedList<T>`
(`src/LinkedList.h`) and of the console helper `togglePauseById`
(`src/main.cpp`).

The C++ pointer structure is embedded shallowly: machine addresses are
natural numbers with `0` playing the role of `nullptr`, the heap is a
partial map from addresses to nodes, and every pointer dereference is
explicit -- dereferencing `nullptr` or a freed cell yields `none`
(undefined behaviour in the source).  Every member function of the class
is translated statement by statement; `while` loops become fuelled
recursion, the fuel being the cached size that bounds every traversal in
the source.  `size_t` arithmetic is modelled by `Nat`: under the
representation invariant `isRing` all node addresses are distinct,
nonzero and below `2 ^ 64`, so a ring holds fewer than `2 ^ 64` nodes and
the source's `++sz_` / `--sz_` never wrap in any state reachable under
that invariant.
-/

/-- Machine address; `0` models `nullptr`. -/
abbrev Addr : Type := Nat

/-- A heap cell for `LinkedList<T>::Node`: one element and the successor pointer. -/
structure Node (T : Type) where
  data : T
  next : Addr
deriving DecidableEq

variable {T : Type}

/-- The heap: a partial map from addresses to allocated nodes. -/
def Heap (T : Type) : Type := Addr → Option (Node T)

/-- Write (or free, with `none`) the cell at address `a`. -/
def Heap.set (h : Heap T) (a : Addr) (v : Option (Node T)) : Heap T :=
  fun b => if b = a then v else h b

/-- The heap with nothing allocated. -/
def Heap.empty (T : Type) : Heap T := fun _ => none

/-- Dereference a pointer: `none` on `nullptr` or an unallocated address
(undefined behaviour in the C++ source). -/
def deref (h : Heap T) (a : Addr) : Option (Node T) :=
  if a = 0 then none else h a

/-- The member fields of a `LinkedList<T>` object; the nodes themselves live
in the heap.  `head_ = 0` encodes the null `head_` pointer of an empty list. -/
structure LinkedList where
  head_ : Addr
  tail_ : Addr
  sz_ : Nat
deriving DecidableEq

namespace LinkedList

/-- The default-constructed list: `head_ = tail_ = nullptr`, `sz_ = 0`. -/
def new : LinkedList := ⟨0, 0, 0⟩

/-- Transcribes `LinkedList<T>::empty`: `head_ == nullptr`. -/
def empty (r : LinkedList) : Bool := r.head_ = 0

/-- Transcribes `LinkedList<T>::size`. -/
def size (r : LinkedList) : Nat := r.sz_

/-- Transcribes `LinkedList<T>::make_single`: `n->next = n; head_ = tail_ = n;
sz_ = 1` for the freshly created node at address `n`. -/
def make_single (h : Heap T) (n : Addr) : Option (Heap T × LinkedList) := do
  let nd ← deref h n
  pure (h.set n (some ⟨nd.data, n⟩), ⟨n, n, 1⟩)

/-- Transcribes `LinkedList<T>::append`.  The `alloc` argument is the address
handed out by `new Node(value)`, the first statement of the function; `none`
models `new` throwing `std::bad_alloc`, which propagates before anything else
runs, so the heap and the fields are returned untouched with result flag
`false`.  On completion the flag is `true`. -/
def append (h : Heap T) (r : LinkedList) (value : T) (alloc : Option Addr) :
    Option (Bool × Heap T × LinkedList) :=
  match alloc with
  | none => pure (false, h, r)
  | some a =>
    let h := h.set a (some ⟨value, 0⟩)
    if r.head_ = 0 then do
      let (h, r) ← make_single h a
      pure (true, h, r)
    else do
      let h := h.set a (some ⟨value, r.head_⟩)
      let tn ← deref h r.tail_
      let h := h.set r.tail_ (some ⟨tn.data, a⟩)
      pure (true, h, ⟨r.head_, a, r.sz_ + 1⟩)

/-- Transcribes `LinkedList<T>::pop_front`, including the `delete` of the
removed node (the cell is freed). -/
def pop_front (h : Heap T) (r : LinkedList) : Option (Bool × Heap T × LinkedList) :=
  if r.head_ = 0 then pure (false, h, r)
  else if r.head_ = r.tail_ then
    pure (true, h.set r.head_ none, ⟨0, 0, 0⟩)
  else do
    let hn ← deref h r.head_
    let tn ← deref h r.tail_
    let h := h.set r.tail_ (some ⟨tn.data, hn.next⟩)
    let h := h.set r.head_ none
    pure (true, h, ⟨hn.next, r.tail_, r.sz_ - 1⟩)

/-- Transcribes `LinkedList<T>::rotate`; the heap is untouched, only the two
fields advance. -/
def rotate (h : Heap T) (r : LinkedList) : Option LinkedList :=
  if r.head_ = 0 ∨ r.head_ = r.tail_ then pure r
  else do
    let hn ← deref h r.head_
    let tn ← deref h r.tail_
    pure ⟨hn.next, tn.next, r.sz_⟩

/-- Transcribes `LinkedList<T>::front`: an unguarded read of `head_->data`. -/
def front (h : Heap T) (r : LinkedList) : Option T :=
  (deref h r.head_).map Node.data

/-- Loop body of `LinkedList<T>::display`: prints `cur->data`, a `" -> "`
separator while `i + 1 < sz_`, and follows `cur = cur->next`; the counter
argument is the number of iterations still to run. -/
def displayLoop (f : T → String) (h : Heap T) (a : Addr) : Nat → Option String
  | 0 => pure ""
  | k + 1 => do
      let n ← deref h a
      let rest ← displayLoop f h n.next k
      pure ((f n.data ++ if 0 < k then " -> " else "") ++ rest)

/-- Transcribes `LinkedList<T>::display`; `f` stands for `operator<<` on the
element type, and the result is the text written to `std::cout`. -/
def display (f : T → String) (h : Heap T) (r : LinkedList) : Option String :=
  if r.head_ = 0 then pure "[] (empty)\n"
  else do
    let body ← displayLoop f h r.head_ r.sz_
    pure ("[" ++ body ++ "] (circular)\n")

/-- Loop of `LinkedList<T>::clear`: `nxt = cur->next; delete cur; cur = nxt`,
run exactly `sz_` times. -/
def clearLoop (h : Heap T) (a : Addr) : Nat → Option (Heap T)
  | 0 => pure h
  | k + 1 => do
      let n ← deref h a
      clearLoop (h.set a none) n.next k

/-- Transcribes `LinkedList<T>::clear`. -/
def clear (h : Heap T) (r : LinkedList) : Option (Heap T × LinkedList) :=
  if r.head_ = 0 then pure (h, r)
  else do
    let h ← clearLoop h r.head_ r.sz_
    pure (h, ⟨0, 0, 0⟩)

/-- The slow/fast walk of `LinkedList<T>::splitIntoTwo`:
`while (fast->next != head_ && fast->next->next != head_) { slow = slow->next;
fast = fast->next->next; }`.  The fuel argument bounds the iteration count
(the call site passes `sz_`, which suffices for every well-formed ring);
running out of fuel models divergence of the source loop. -/
def splitLoop (h : Heap T) (hd : Addr) (slow fast : Addr) : Nat → Option (Addr × Addr)
  | 0 => none
  | k + 1 => do
      let fn ← deref h fast
      if fn.next = hd then pure (slow, fast)
      else do
        let fn2 ← deref h fn.next
        if fn2.next = hd then pure (slow, fast)
        else do
          let sn ← deref h slow
          splitLoop h hd sn.next fn2.next k

/-- Transcribes `LinkedList<T>::splitIntoTwo` (receiver, `first`, `second`).
Returns the new heap and the new field contents of the receiver, `first`
and `second`, in that order. -/
def splitIntoTwo (h : Heap T) (r first second : LinkedList) :
    Option (Heap T × LinkedList × LinkedList × LinkedList) := do
  let (h, first) ← clear h first
  let (h, second) ← clear h second
  if r.head_ = 0 then
    pure (h, r, first, second)
  else if r.sz_ = 1 then do
    let tn ← deref h r.tail_
    let h := h.set r.tail_ (some ⟨tn.data, r.head_⟩)
    pure (h, ⟨0, 0, 0⟩, ⟨r.head_, r.tail_, 1⟩, second)
  else do
    let (slow, fast) ← splitLoop h r.head_ r.head_ r.head_ r.sz_
    let fn ← deref h fast
    let fn2 ← deref h fn.next
    let fast := if fn2.next = r.head_ then fn.next else fast
    let sn ← deref h slow
    let head2 := sn.next
    let h := h.set slow (some ⟨sn.data, r.head_⟩)
    let f2n ← deref h fast
    let h := h.set fast (some ⟨f2n.data, head2⟩)
    let n1 := (r.sz_ + 1) / 2
    pure (h, ⟨0, 0, 0⟩, ⟨r.head_, slow, n1⟩, ⟨head2, fast, r.sz_ - n1⟩)

/-- Transcribes `LinkedList<T>::mergeWith` (receiver, `other`).  Returns the
new heap and the new field contents of the receiver and of `other`. -/
def mergeWith (h : Heap T) (r other : LinkedList) :
    Option (Heap T × LinkedList × LinkedList) :=
  if other.head_ = 0 then pure (h, r, other)
  else if r.head_ = 0 then
    pure (h, ⟨other.head_, other.tail_, other.sz_⟩, ⟨0, 0, 0⟩)
  else do
    let tn ← deref h r.tail_
    let h := h.set r.tail_ (some ⟨tn.data, other.head_⟩)
    let otn ← deref h other.tail_
    let h := h.set other.tail_ (some ⟨otn.data, r.head_⟩)
    pure (h, ⟨r.head_, other.tail_, r.sz_ + other.sz_⟩, ⟨0, 0, 0⟩)

/-- Iterated `append`, one fresh address per value; models a sequence of
`ring.append(v)` calls that all get distinct fresh nodes. -/
def appendIter (h : Heap T) (r : LinkedList) : List (Addr × T) → Option (Heap T × LinkedList)
  | [] => pure (h, r)
  | (a, v) :: ps => do
      let (_, h, r) ← LinkedList.append h r v (some a)
      appendIter h r ps

/-- Iterated `pop_front`, recording the returned flags in order. -/
def popIter (h : Heap T) (r : LinkedList) : Nat → Option (List Bool × Heap T × LinkedList)
  | 0 => pure ([], h, r)
  | k + 1 => do
      let (b, h, r) ← LinkedList.pop_front h r
      let (bs, h, r) ← popIter h r k
      pure (b :: bs, h, r)

/-- Iterated `rotate` (the heap is never changed by `rotate`). -/
def rotIter (h : Heap T) (r : LinkedList) : Nat → Option LinkedList
  | 0 => pure r
  | k + 1 => do
      let r ← LinkedList.rotate h r
      rotIter h r k

/-- One round of `v = ring.front(); ring.pop_front(); ring.append(v)`, the
fresh node of the `append` living at address `a`. -/
def popFrontThenAppend (h : Heap T) (r : LinkedList) (a : Addr) :
    Option (Heap T × LinkedList) := do
  let v ← LinkedList.front h r
  let (_, h, r) ← LinkedList.pop_front h r
  let (_, h, r) ← LinkedList.append h r v (some a)
  pure (h, r)

/-- Iterated `popFrontThenAppend`, one fresh address per round. -/
def popAppendIter (h : Heap T) (r : LinkedList) : List Addr → Option (Heap T × LinkedList)
  | [] => pure (h, r)
  | a :: as => do
      let (h, r) ← popFrontThenAppend h r a
      popAppendIter h r as

/-- An element of the simulation ring in `src/main.cpp`. -/
structure Robot where
  id : Int
  name : String
  battery : Int
  drain : Int
  paused : Bool
deriving DecidableEq

/-- Loop of `togglePauseById` (`src/main.cpp`): up to `ring.size()` rounds of
"if `ring.front().id == id` then toggle `paused` and break, else
`ring.rotate()`"; the counter argument is the number of rounds left.  The
returned flag is `found`. -/
def togglePauseLoop (h : Heap Robot) (r : LinkedList) (tid : Int) :
    Nat → Option (Bool × Heap Robot × LinkedList)
  | 0 => pure (false, h, r)
  | k + 1 => do
      let hn ← deref h r.head_
      if hn.data.id = tid then
        pure (true, h.set r.head_ (some ⟨{ hn.data with paused := !hn.data.paused }, hn.next⟩), r)
      else do
        let r ← LinkedList.rotate h r
        togglePauseLoop h r tid k

/-- Transcribes `togglePauseById` from `src/main.cpp` (the printing aside). -/
def togglePauseById (h : Heap Robot) (r : LinkedList) (tid : Int) :
    Option (Bool × Heap Robot × LinkedList) :=
  if r.size = 0 then pure (false, h, r)
  else togglePauseLoop h r tid r.size

/-! ## Representation predicate -/

/-- Heap-chain predicate: starting at address `a`, the cells listed in `ps`
(address paired with its element) are allocated and linked in order by their
`next` fields, the last one pointing at `b`.  For `ps = []` it just asserts
`a = b`. -/
def segFrom (h : Heap T) : Addr → List (Addr × T) → Addr → Prop
  | a, [], b => a = b
  | a, (x, d) :: ps, b =>
      x = a ∧ ∃ n : Node T, deref h a = some n ∧ n.data = d ∧ segFrom h n.next ps b

instance segFromDec [DecidableEq T] (h : Heap T) :
    (a : Addr) → (ps : List (Addr × T)) → (b : Addr) → Decidable (segFrom h a ps b)
  | a, [], b => decidable_of_iff (a = b) (by simp [segFrom])
  | a, (x, d) :: ps, b =>
      match hn : deref h a with
      | none => isFalse (by simp [segFrom, hn])
      | some n =>
          have : Decidable (segFrom h n.next ps b) := segFromDec h n.next ps b
          decidable_of_iff (x = a ∧ n.data = d ∧ segFrom h n.next ps b)
            (by simp [segFrom, hn])

/-- Representation invariant tying a `LinkedList` object to the list `ns` of
its nodes (address, element) in head-to-tail order: the fields cache the
length, first and last address; the addresses are distinct, nonzero, valid
64-bit pointers; and the cells form a closed chain from `head_` back to
`head_`.  For `ns = []` this forces `head_ = tail_ = 0` and `sz_ = 0`. -/
def isRing (h : Heap T) (r : LinkedList) (ns : List (Addr × T)) : Prop :=
  r.sz_ = ns.length ∧
  (ns.map Prod.fst).Nodup ∧
  (∀ a ∈ ns.map Prod.fst, a ≠ 0 ∧ a < 2 ^ 64) ∧
  r.head_ = (ns.map Prod.fst).headD 0 ∧
  r.tail_ = (ns.map Prod.fst).getLastD 0 ∧
  segFrom h r.head_ ns r.head_

instance isRingDec [DecidableEq T] (h : Heap T) (r : LinkedList) (ns : List (Addr × T)) :
    Decidable (isRing h r ns) := by
  unfold isRing; infer_instance

/-! ## Observation functions -/

/-- Collect `k` elements starting at address `a` following `next`; this is the
bounded head-to-tail traversal that `forEach` / `display` perform. -/
def seqFrom (h : Heap T) (a : Addr) : Nat → Option (List T)
  | 0 => pure []
  | k + 1 => do
      let n ← deref h a
      let rest ← seqFrom h n.next k
      pure (n.data :: rest)

/-- The head-to-tail element sequence of a list object: `sz_` nodes starting
at `head_`. -/
def listOf (h : Heap T) (r : LinkedList) : Option (List T) :=
  seqFrom h r.head_ r.sz_

/-- Modelled from the spec: the `e1 -> e2 -> ... -> en` body of the rendering
described in the specification of `display`. -/
def joinArrow (f : T → String) : List T → String
  | [] => ""
  | [x] => f x
  | x :: y :: xs => f x ++ " -> " ++ joinArrow f (y :: xs)

/-- Modelled from the spec: the full rendering `[e1 -> e2 -> ... -> en]
(circular)` for a non-empty sequence and `[] (empty)` for an empty one, each
printed as a line. -/
def displaySpec (f : T → String) (l : List T) : String :=
  if l.isEmpty then "[] (empty)\n" else "[" ++ joinArrow f l ++ "] (circular)\n"

/-! ## Concrete fixtures used to evaluate the development on small inputs -/

/-- A heap holding a three-node ring at addresses 1, 2, 3 with values 10, 20, 30. -/
def hw3 : Heap Nat :=
  (((Heap.empty Nat).set 1 (some ⟨10, 2⟩)).set 2 (some ⟨20, 3⟩)).set 3 (some ⟨30, 1⟩)

/-- The field contents of the three-node ring living in `hw3`. -/
def rw3 : LinkedList := ⟨1, 3, 3⟩

/-- The node list of the ring in `hw3`. -/
def nsw3 : List (Addr × Nat) := [(1, 10), (2, 20), (3, 30)]

/-- A heap holding two disjoint rings: one at addresses 1, 2 and one at 5. -/
def hwm : Heap Nat :=
  (((Heap.empty Nat).set 1 (some ⟨10, 2⟩)).set 2 (some ⟨20, 1⟩)).set 5 (some ⟨50, 5⟩)

/-- The two-node ring in `hwm`. -/
def rwmA : LinkedList := ⟨1, 2, 2⟩

/-- The one-node ring in `hwm`. -/
def rwmB : LinkedList := ⟨5, 5, 1⟩

/-- A two-robot ring (ids 1 and 2) for exercising `togglePauseById`. -/
def hwr : Heap Robot :=
  ((Heap.empty Robot).set 1 (some ⟨⟨1, "A", 5, 1, false⟩, 2⟩)).set 2
    (some ⟨⟨2, "B", 4, 1, false⟩, 1⟩)

/-- The field contents of the robot ring in `hwr`. -/
def rwr : LinkedList := ⟨1, 2, 2⟩

/-- The node list of the robot ring in `hwr`. -/
def nswr : List (Addr × Robot) :=
  [(1, ⟨1, "A", 5, 1, false⟩), (2, ⟨2, "B", 4, 1, false⟩)]

/-! ## Heap and dereference lemmas -/

theorem Heap.get_set_self (h : Heap T) (a : Addr) (v : Option (Node T)) :
    h.set a v a = v := by
  simp [Heap.set]

theorem Heap.get_set_ne (h : Heap T) {a b : Addr} (v : Option (Node T)) (hne : b ≠ a) :
    h.set a v b = h b := by
  simp [Heap.set, hne]

theorem deref_eq_some {h : Heap T} {a : Addr} {n : Node T} :
    deref h a = some n ↔ a ≠ 0 ∧ h a = some n := by
  unfold deref
  by_cases ha : a = 0 <;> simp [ha]

theorem deref_set_self (h : Heap T) {a : Addr} (v : Option (Node T)) (ha : a ≠ 0) :
    deref (h.set a v) a = v := by
  simp [deref, Heap.set, ha]

theorem deref_set_ne (h : Heap T) {a b : Addr} (v : Option (Node T)) (hne : b ≠ a) :
    deref (h.set a v) b = deref h b := by
  by_cases hb : b = 0 <;> simp [deref, Heap.set, hb, hne]

/-! ## String append helpers -/

theorem str_append_empty (s : String) : s ++ "" = s := by
  cases s with
  | mk l => exact congrArg String.mk (List.append_nil l)

theorem str_append_assoc (s t u : String) : s ++ t ++ u = s ++ (t ++ u) := by
  cases s with
  | mk ls =>
    cases t with
    | mk lt =>
      cases u with
      | mk lu => exact congrArg String.mk (List.append_assoc ls lt lu)

/-! ## List helpers -/

theorem headD_eq_getD (l : List α) (d : α) : l.headD d = l.getD 0 d := by
  cases l <;> rfl

theorem getLastD_eq_getD (l : List α) (d : α) : l.getLastD d = l.getD (l.length - 1) d := by
  induction l generalizing d with
  | nil => rfl
  | cons x xs ih =>
    cases xs with
    | nil => rfl
    | cons y ys =>
      rw [List.getLastD_cons, ih]
      simp

theorem getLastD_append_right (l m : List α) (d : α) (hm : m ≠ []) :
    (l ++ m).getLastD d = m.getLastD d := by
  induction l generalizing d with
  | nil => rfl
  | cons x xs ih =>
    rw [List.cons_append, List.getLastD_cons, ih x]
    cases m with
    | nil => exact absurd rfl hm
    | cons y ys => rw [List.getLastD_cons, List.getLastD_cons]

theorem getLastD_mem (l : List α) (d : α) (hl : l ≠ []) : l.getLastD d ∈ l := by
  induction l generalizing d with
  | nil => exact absurd rfl hl
  | cons x xs ih =>
    rw [List.getLastD_cons]
    cases xs with
    | nil => simp [List.getLastD]
    | cons y ys => exact List.mem_cons_of_mem x (ih x (by simp))

theorem nodup_getD_inj {l : List α} [Inhabited α] (hl : l.Nodup) {i j : Nat} (d : α)
    (hi : i < l.length) (hj : j < l.length) (heq : l.getD i d = l.getD j d) : i = j := by
  rw [List.getD_eq_get l d hi, List.getD_eq_get l d hj] at heq
  have := (List.Nodup.get_inj_iff hl).mp heq
  exact congrArg Fin.val this

theorem getD_drop (l : List α) (d : α) (i j : Nat) :
    (l.drop i).getD j d = l.getD (i + j) d := by
  induction l generalizing i j with
  | nil => simp
  | cons x xs ih =>
    cases i with
    | zero => simp
    | succ k =>
      rw [List.drop_succ_cons, ih, Nat.succ_add]
      simp

theorem headD_take (l : List α) (d : α) (k : Nat) (hk : 0 < k) :
    (l.take k).headD d = l.headD d := by
  cases l with
  | nil => simp
  | cons x xs =>
    cases k with
    | zero => exact absurd hk (by simp)
    | succ m => simp

/-! ## Chain (segFrom) lemmas -/

theorem segFrom_nil {h : Heap T} {a b : Addr} : segFrom h a ([] : List (Addr × T)) b ↔ a = b :=
  Iff.rfl

theorem segFrom_cons {h : Heap T} {a b x : Addr} {d : T} {ps : List (Addr × T)} :
    segFrom h a ((x, d) :: ps) b ↔
      x = a ∧ ∃ n : Node T, deref h a = some n ∧ n.data = d ∧ segFrom h n.next ps b :=
  Iff.rfl

theorem segFrom_frame {h h' : Heap T} :
    ∀ {a b : Addr} {ps : List (Addr × T)}, (∀ p ∈ ps, h' p.1 = h p.1) →
      segFrom h a ps b → segFrom h' a ps b := by
  intro a b ps
  induction ps generalizing a with
  | nil => exact fun _ hs => hs
  | cons p ps ih =>
    obtain ⟨x, d⟩ := p
    rintro H ⟨rfl, n, hd, hdata, hrest⟩
    have hx : h' x = h x := H (x, d) (by simp)
    rw [deref_eq_some] at hd
    exact ⟨rfl, n, deref_eq_some.mpr ⟨hd.1, hx ▸ hd.2⟩, hdata,
      ih (fun q hq => H q (List.mem_cons_of_mem _ hq)) hrest⟩

theorem segFrom_append {h : Heap T} :
    ∀ {a b : Addr} {ps qs : List (Addr × T)},
      segFrom h a (ps ++ qs) b ↔ ∃ c, segFrom h a ps c ∧ segFrom h c qs b := by
  intro a b ps qs
  induction ps generalizing a with
  | nil =>
    constructor
    · exact fun hs => ⟨a, rfl, hs⟩
    · rintro ⟨c, rfl, hs⟩; exact hs
  | cons p ps ih =>
    obtain ⟨x, d⟩ := p
    constructor
    · rintro ⟨rfl, n, hd, hdata, hrest⟩
      obtain ⟨c, h1, h2⟩ := ih.mp hrest
      exact ⟨c, ⟨rfl, n, hd, hdata, h1⟩, h2⟩
    · rintro ⟨c, ⟨rfl, n, hd, hdata, h1⟩, h2⟩
      exact ⟨rfl, n, hd, hdata, ih.mpr ⟨c, h1, h2⟩⟩

theorem segFrom_alloc {h : Heap T} :
    ∀ {a b : Addr} {ps : List (Addr × T)}, segFrom h a ps b →
      ∀ p ∈ ps, ∃ n : Node T, deref h p.1 = some n ∧ n.data = p.2 := by
  intro a b ps
  induction ps generalizing a with
  | nil => intro _ p hp; exact absurd hp (by simp)
  | cons q ps ih =>
    obtain ⟨x, d⟩ := q
    rintro ⟨rfl, n, hd, hdata, hrest⟩ p hp
    rcases List.mem_cons.mp hp with hp | hp
    · subst hp; exact ⟨n, hd, hdata⟩
    · exact ih hrest p hp

theorem segFrom_first {h : Heap T} {a b : Addr} {ps : List (Addr × T)}
    (hs : segFrom h a ps b) (hne : ps ≠ []) : (ps.map Prod.fst).getD 0 0 = a := by
  cases ps with
  | nil => exact absurd rfl hne
  | cons p ps =>
    obtain ⟨x, d⟩ := p
    exact hs.1

theorem segFrom_relink {h : Heap T} {a b c : Addr} {qs : List (Addr × T)} {q : Addr × T}
    (hq : q.1 ∉ qs.map Prod.fst) (hs : segFrom h a (qs ++ [q]) b)
    {n : Node T} (hn : deref h q.1 = some n) :
    segFrom (h.set q.1 (some ⟨n.data, c⟩)) a (qs ++ [q]) c := by
  obtain ⟨m, h1, h2⟩ := segFrom_append.mp hs
  obtain ⟨x, d⟩ := q
  obtain ⟨hm, n', hn', hdata', hrest⟩ := h2
  subst hm
  have hnn : n' = n := Option.some.inj (hn'.symm.trans hn)
  rw [hnn] at hdata' hrest
  refine segFrom_append.mpr ⟨x, ?_, ?_⟩
  · refine segFrom_frame (fun p hp => ?_) h1
    refine Heap.get_set_ne h _ (fun hpx => hq ?_)
    exact hpx ▸ List.mem_map_of_mem Prod.fst hp
  · have hx0 : x ≠ 0 := (deref_eq_some.mp hn).1
    exact ⟨rfl, Node.mk n.data c, deref_set_self h _ hx0, hdata', rfl⟩

theorem segFrom_seqFrom {h : Heap T} :
    ∀ {a b : Addr} {ps : List (Addr × T)}, segFrom h a ps b →
      seqFrom h a ps.length = some (ps.map Prod.snd) := by
  intro a b ps
  induction ps generalizing a with
  | nil => intro _; rfl
  | cons p ps ih =>
    obtain ⟨x, d⟩ := p
    rintro ⟨rfl, n, hd, hdata, hrest⟩
    simp only [List.length_cons, seqFrom, hd, Option.bind_eq_bind, Option.some_bind,
      ih hrest, List.map_cons, hdata]
    rfl

theorem segFrom_displayLoop (f : T → String) {h : Heap T} :
    ∀ {a b : Addr} {ps : List (Addr × T)}, segFrom h a ps b →
      LinkedList.displayLoop f h a ps.length = some (joinArrow f (ps.map Prod.snd)) := by
  intro a b ps
  induction ps generalizing a with
  | nil => intro _; rfl
  | cons p ps ih =>
    obtain ⟨x, d⟩ := p
    rintro ⟨rfl, n, hd, hdata, hrest⟩
    simp only [List.length_cons, LinkedList.displayLoop, hd, Option.bind_eq_bind,
      Option.some_bind, ih hrest, List.map_cons, hdata]
    cases ps with
    | nil =>
      simp [joinArrow, str_append_empty]
    | cons q qs =>
      simp only [List.length_cons, Nat.zero_lt_succ, if_pos, List.map_cons, joinArrow,
        Option.some_bind]
      rw [str_append_assoc]
      cases qs <;> rfl

theorem clearLoop_ok {h : Heap T} :
    ∀ {a b : Addr} {ps : List (Addr × T)}, (ps.map Prod.fst).Nodup → segFrom h a ps b →
      ∃ h', LinkedList.clearLoop h a ps.length = some h' ∧
        (∀ x ∈ ps.map Prod.fst, h' x = none) ∧
        (∀ x, x ∉ ps.map Prod.fst → h' x = h x) := by
  intro a b ps
  induction ps generalizing h a with
  | nil => exact fun _ _ => ⟨h, rfl, by simp, fun x _ => rfl⟩
  | cons p ps ih =>
    obtain ⟨x, d⟩ := p
    rintro hnd ⟨rfl, n, hd, hdata, hrest⟩
    have hx0 : x ≠ 0 := (deref_eq_some.mp hd).1
    have hxps : x ∉ ps.map Prod.fst := by
      simp only [List.map_cons, List.nodup_cons] at hnd
      exact hnd.1
    have hrest' : segFrom (h.set x none) n.next ps b := by
      refine segFrom_frame (fun q hq => ?_) hrest
      exact Heap.get_set_ne h _ (fun hqx => hxps (hqx ▸ List.mem_map_of_mem Prod.fst hq))
    obtain ⟨h', hrun, hin, hout⟩ :=
      ih (by simpa using (List.nodup_cons.mp (by simpa using hnd)).2) hrest'
    refine ⟨h', ?_, ?_, ?_⟩
    · simp only [List.length_cons, LinkedList.clearLoop, hd, Option.bind_eq_bind,
        Option.some_bind]
      exact hrun
    · intro y hy
      simp only [List.map_cons, List.mem_cons] at hy
      rcases hy with rfl | hy'
      · rw [hout y hxps]
        exact Heap.get_set_self h y none
      · exact hin y hy'
    · intro y hy
      have hy1 : y ∉ ps.map Prod.fst := fun hmem => hy (by simp [hmem])
      have hy2 : y ≠ x := fun hyx => hy (by simp [hyx])
      rw [hout y hy1]
      exact Heap.get_set_ne h _ hy2

theorem segFrom_getD_next {h : Heap T} :
    ∀ {a b : Addr} {ps : List (Addr × T)}, segFrom h a ps b →
      ∀ i, i + 1 < ps.length →
        ∃ n : Node T, deref h ((ps.map Prod.fst).getD i 0) = some n ∧
          n.next = (ps.map Prod.fst).getD (i + 1) 0 := by
  intro a b ps
  induction ps generalizing a with
  | nil => intro _ i hi; exact absurd hi (by simp)
  | cons p ps ih =>
    obtain ⟨x, d⟩ := p
    rintro ⟨rfl, n, hd, hdata, hrest⟩ i hi
    cases i with
    | zero =>
      have hps : ps ≠ [] := by
        intro hnil
        rw [hnil] at hi
        exact absurd hi (by simp)
      refine ⟨n, by simpa using hd, ?_⟩
      have := segFrom_first hrest hps
      simp only [List.map_cons, List.getD_cons_succ]
      exact this.symm
    | succ j =>
      have hj : j + 1 < ps.length := by
        simp only [List.length_cons] at hi
        omega
      obtain ⟨m, hm, hmn⟩ := ih hrest j hj
      exact ⟨m, by simpa using hm, by simpa using hmn⟩

theorem segFrom_getD_last {h : Heap T} :
    ∀ {a b : Addr} {ps : List (Addr × T)}, segFrom h a ps b → ps ≠ [] →
      ∃ n : Node T, deref h ((ps.map Prod.fst).getD (ps.length - 1) 0) = some n ∧
        n.next = b := by
  intro a b ps
  induction ps generalizing a with
  | nil => exact fun _ hne => absurd rfl hne
  | cons p ps ih =>
    obtain ⟨x, d⟩ := p
    rintro ⟨rfl, n, hd, hdata, hrest⟩ _
    cases hps : ps with
    | nil =>
      subst hps
      exact ⟨n, by simpa using hd, hrest⟩
    | cons q qs =>
      subst hps
      obtain ⟨m, hm, hmn⟩ := ih hrest (by simp)
      refine ⟨m, ?_, hmn⟩
      have hlen : (q :: qs).length - 1 + 1 = (q :: qs).length := by simp
      simp only [List.length_cons, Nat.add_sub_cancel, List.map_cons]
      have : (q :: qs).length - 1 + 1 = qs.length + 1 := by simp
      rw [show qs.length + 1 = (q :: qs).length - 1 + 1 by simp, List.getD_cons_succ]
      simpa using hm

theorem segFrom_ring_next {h : Heap T} {a : Addr} {ns : List (Addr × T)}
    (hseg : segFrom h a ns a) (hne : ns ≠ []) (i : Nat) (hi : i < ns.length) :
    ∃ nd : Node T, deref h ((ns.map Prod.fst).getD i 0) = some nd ∧
      nd.next = (ns.map Prod.fst).getD ((i + 1) % ns.length) 0 := by
  rcases Nat.lt_or_ge (i + 1) ns.length with hlt | hge
  · rw [Nat.mod_eq_of_lt hlt]
    exact segFrom_getD_next hseg i hlt
  · have heq : i + 1 = ns.length := by omega
    rw [heq, Nat.mod_self]
    obtain ⟨n, hd, hnext⟩ := segFrom_getD_last hseg hne
    have hidx : ns.length - 1 = i := by omega
    rw [hidx] at hd
    exact ⟨n, hd, by rw [hnext, segFrom_first hseg hne]⟩

/-! ## Lemmas about the representation invariant -/

theorem headD_mem (l : List α) (d : α) (hl : l ≠ []) : l.headD d ∈ l := by
  cases l with
  | nil => exact absurd rfl hl
  | cons x xs => simp

theorem isRing_nil_iff {h : Heap T} {r : LinkedList} :
    isRing h r ([] : List (Addr × T)) ↔ r = ⟨0, 0, 0⟩ := by
  unfold isRing
  constructor
  · rintro ⟨h1, -, -, h4, h5, -⟩
    cases r
    simp only [List.length_nil, List.map_nil, List.headD_nil, List.getLastD_nil] at h1 h4 h5
    simp [h1, h4, h5]
  · rintro rfl
    exact ⟨rfl, by simp, by simp, rfl, rfl, rfl⟩

theorem isRing_unique {h : Heap T} {r r' : LinkedList} {ns : List (Addr × T)}
    (h1 : isRing h r ns) (h2 : isRing h r' ns) : r = r' := by
  cases r
  cases r'
  obtain ⟨a1, -, -, a4, a5, -⟩ := h1
  obtain ⟨b1, -, -, b4, b5, -⟩ := h2
  simp_all

theorem isRing_frame {h h' : Heap T} {r : LinkedList} {ns : List (Addr × T)}
    (H : ∀ p ∈ ns, h' p.1 = h p.1) (hr : isRing h r ns) : isRing h' r ns :=
  ⟨hr.1, hr.2.1, hr.2.2.1, hr.2.2.2.1, hr.2.2.2.2.1, segFrom_frame H hr.2.2.2.2.2⟩

theorem isRing_seg {h : Heap T} {r : LinkedList} {ns : List (Addr × T)}
    (hr : isRing h r ns) : segFrom h r.head_ ns r.head_ :=
  hr.2.2.2.2.2

theorem isRing_head_ne_zero {h : Heap T} {r : LinkedList} {ns : List (Addr × T)}
    (hr : isRing h r ns) (hne : ns ≠ []) : r.head_ ≠ 0 := by
  have hmem : r.head_ ∈ ns.map Prod.fst := by
    rw [hr.2.2.2.1]
    exact headD_mem _ 0 (by simpa using hne)
  exact (hr.2.2.1 _ hmem).1

theorem isRing_alloc {h : Heap T} {r : LinkedList} {ns : List (Addr × T)}
    (hr : isRing h r ns) : ∀ p ∈ ns, h p.1 ≠ none := by
  intro p hp
  obtain ⟨n, hn, -⟩ := segFrom_alloc (isRing_seg hr) p hp
  rw [(deref_eq_some.mp hn).2]
  simp

theorem isRing_listOf {h : Heap T} {r : LinkedList} {ns : List (Addr × T)}
    (hr : isRing h r ns) : listOf h r = some (ns.map Prod.snd) := by
  unfold listOf
  rw [hr.1]
  exact segFrom_seqFrom (isRing_seg hr)

theorem isRing_front {h : Heap T} {r : LinkedList} {ns : List (Addr × T)}
    (hr : isRing h r ns) : LinkedList.front h r = (ns.map Prod.snd).head? := by
  cases ns with
  | nil =>
    obtain rfl := isRing_nil_iff.mp hr
    simp [LinkedList.front, deref]
  | cons p ps =>
    obtain ⟨x, d⟩ := p
    obtain ⟨rfl, n, hd, hdata, -⟩ := isRing_seg hr
    simp [LinkedList.front, hd, hdata]

theorem isRing_display (f : T → String) {h : Heap T} {r : LinkedList} {ns : List (Addr × T)}
    (hr : isRing h r ns) : LinkedList.display f h r = some (displaySpec f (ns.map Prod.snd)) := by
  cases hns : ns with
  | nil =>
    obtain rfl := isRing_nil_iff.mp (hns ▸ hr)
    simp [LinkedList.display, displaySpec]
  | cons p ps =>
    have hne : ns ≠ [] := by simp [hns]
    have hh0 : r.head_ ≠ 0 := isRing_head_ne_zero hr hne
    unfold LinkedList.display
    rw [if_neg hh0, hr.1, segFrom_displayLoop f (isRing_seg hr)]
    subst hns
    simp [displaySpec]

theorem headD_append_left (l m : List α) (d : α) (hl : l ≠ []) :
    (l ++ m).headD d = l.headD d := by
  cases l with
  | nil => exact absurd rfl hl
  | cons x xs => rfl

theorem isRing_not_mem {h : Heap T} {r : LinkedList} {ns : List (Addr × T)} {a : Addr}
    (hr : isRing h r ns) (hfresh : h a = none) : a ∉ ns.map Prod.fst := by
  intro hmem
  obtain ⟨p, hp, hpa⟩ := List.mem_map.mp hmem
  exact isRing_alloc hr p hp (hpa.symm ▸ hfresh)

theorem isRing_tail_mem {h : Heap T} {r : LinkedList} {ns : List (Addr × T)}
    (hr : isRing h r ns) (hne : ns ≠ []) : r.tail_ ∈ ns.map Prod.fst := by
  rw [hr.2.2.2.2.1]
  exact getLastD_mem _ 0 (by simpa using hne)

theorem append_ok {h : Heap T} {r : LinkedList} {ns : List (Addr × T)} {v : T} {a : Addr}
    (hr : isRing h r ns) (ha0 : a ≠ 0) (hub : a < 2 ^ 64) (hfresh : h a = none) :
    ∃ h' r', LinkedList.append h r v (some a) = some (true, h', r') ∧
      isRing h' r' (ns ++ [(a, v)]) ∧
      (∀ b, b ∉ ns.map Prod.fst → b ≠ a → h' b = h b) := by
  cases hns : ns with
  | nil =>
    obtain rfl := isRing_nil_iff.mp (hns ▸ hr)
    refine ⟨(h.set a (some ⟨v, 0⟩)).set a (some ⟨v, a⟩), ⟨a, a, 1⟩, ?_, ?_, ?_⟩
    · simp [LinkedList.append, LinkedList.make_single,
        deref_set_self _ _ ha0]
    · refine ⟨rfl, by simp, ?_, rfl, rfl, ?_⟩
      · intro x hx
        rw [show x = a by simpa using hx]
        exact ⟨ha0, hub⟩
      refine ⟨rfl, Node.mk v a, ?_, rfl, rfl⟩
      rw [deref_set_self _ _ ha0]
    · intro b _ hba
      rw [Heap.get_set_ne _ _ hba, Heap.get_set_ne _ _ hba]
  | cons p0 ps0 =>
    have hne : ns ≠ [] := by simp [hns]
    rw [← hns]
    clear hns
    have hh0 : r.head_ ≠ 0 := isRing_head_ne_zero hr hne
    have hamem : a ∉ ns.map Prod.fst := isRing_not_mem hr hfresh
    have htmem : r.tail_ ∈ ns.map Prod.fst := isRing_tail_mem hr hne
    have hta : r.tail_ ≠ a := fun he => hamem (he ▸ htmem)
    obtain ⟨p, hp, hpt⟩ := List.mem_map.mp htmem
    obtain ⟨tn, htn0, -⟩ := segFrom_alloc (isRing_seg hr) p hp
    have htn : deref h r.tail_ = some tn := by rw [← hpt]; exact htn0
    set h2 : Heap T := (h.set a (some ⟨v, 0⟩)).set a (some ⟨v, r.head_⟩) with hh2
    have hd2t : deref h2 r.tail_ = some tn := by
      rw [hh2, deref_set_ne _ _ hta, deref_set_ne _ _ hta]
      exact htn
    set h3 : Heap T := h2.set r.tail_ (some ⟨tn.data, a⟩) with hh3
    refine ⟨h3, ⟨r.head_, a, r.sz_ + 1⟩, ?_, ?_, ?_⟩
    · simp only [LinkedList.append, if_neg hh0, ← hh2, hd2t, Option.bind_eq_bind,
        Option.some_bind, ← hh3]
      rfl
    · have hfr2 : ∀ q ∈ ns, h2 q.1 = h q.1 := by
        intro q hq
        have hqa : q.1 ≠ a := fun he => hamem (he ▸ List.mem_map_of_mem Prod.fst hq)
        rw [hh2, Heap.get_set_ne _ _ hqa, Heap.get_set_ne _ _ hqa]
      have hseg2 : segFrom h2 r.head_ ns r.head_ := segFrom_frame hfr2 (isRing_seg hr)
      rcases ns.eq_nil_or_concat with rfl | ⟨qs, q, hcat⟩
      · exact absurd rfl hne
      rw [List.concat_eq_append] at hcat
      have hqtail : q.1 = r.tail_ := by
        have := hr.2.2.2.2.1
        rw [hcat] at this
        rw [this, List.map_append, getLastD_append_right _ _ _ (by simp)]
        simp
      have hqnotin : q.1 ∉ qs.map Prod.fst := by
        have hnd := hr.2.1
        rw [hcat, List.map_append, List.nodup_append] at hnd
        intro hmem
        exact hnd.2.2 hmem (by simp)
      have hrel : segFrom h3 r.head_ ns a := by
        rw [hcat]
        rw [hcat] at hseg2
        have := segFrom_relink (c := a) hqnotin hseg2 (n := tn) (by rw [hqtail]; exact hd2t)
        rw [hqtail] at this
        exact this
      refine ⟨by simp [hr.1], ?_, ?_, ?_, ?_, ?_⟩
      · rw [List.map_append, List.nodup_append]
        exact ⟨hr.2.1, by simp, fun x hx hx' => by
          simp only [List.map_cons, List.map_nil, List.mem_singleton] at hx'
          exact hamem (hx' ▸ hx)⟩
      · intro x hx
        rw [List.map_append, List.mem_append] at hx
        rcases hx with hx | hx
        · exact hr.2.2.1 x hx
        · simp only [List.map_cons, List.map_nil, List.mem_singleton] at hx
          exact hx ▸ ⟨ha0, hub⟩
      · rw [List.map_append, headD_append_left _ _ _ (by simpa using hne)]
        exact hr.2.2.2.1
      · rw [List.map_append, getLastD_append_right _ _ _ (by simp)]
        simp
      · refine segFrom_append.mpr ⟨a, hrel, rfl, Node.mk v r.head_, ?_, rfl, rfl⟩
        rw [hh3, deref_set_ne _ _ (Ne.symm hta), hh2, deref_set_self _ _ ha0]
    · intro b hbns hba
      have hbt : b ≠ r.tail_ := fun he => hbns (he ▸ htmem)
      rw [hh3, Heap.get_set_ne _ _ hbt, hh2, Heap.get_set_ne _ _ hba,
        Heap.get_set_ne _ _ hba]

/-! ## Operation lemmas: pop_front, rotate, clear, mergeWith -/

theorem getLastD_irrel (l : List α) (d d' : α) (hl : l ≠ []) :
    l.getLastD d = l.getLastD d' := by
  cases l with
  | nil => exact absurd rfl hl
  | cons x xs => rw [List.getLastD_cons, List.getLastD_cons]

theorem pop_front_nil {h : Heap T} {r : LinkedList} (hr : isRing h r ([] : List (Addr × T))) :
    LinkedList.pop_front h r = some (false, h, r) := by
  obtain rfl := isRing_nil_iff.mp hr
  rfl

theorem pop_front_ok {h : Heap T} {r : LinkedList} {p : Addr × T} {ps : List (Addr × T)}
    (hr : isRing h r (p :: ps)) :
    ∃ h' r', LinkedList.pop_front h r = some (true, h', r') ∧ isRing h' r' ps ∧
      (∀ b, b ∉ (p :: ps).map Prod.fst → h' b = h b) ∧ h' p.1 = none := by
  obtain ⟨x, d⟩ := p
  obtain ⟨hxh, n, hd, hdata, hrest⟩ := isRing_seg hr
  have hh0 : r.head_ ≠ 0 := isRing_head_ne_zero hr (by simp)
  cases hps : ps with
  | nil =>
    subst hps
    have hht : r.head_ = r.tail_ := by
      rw [← hxh, hr.2.2.2.2.1]
      simp
    refine ⟨h.set r.head_ none, ⟨0, 0, 0⟩, ?_, isRing_nil_iff.mpr rfl, ?_, ?_⟩
    · simp only [LinkedList.pop_front, if_neg hh0, if_pos hht]
      rfl
    · intro b hb
      refine Heap.get_set_ne h _ (fun hbh => hb ?_)
      simp only [List.map_cons, List.map_nil, List.mem_singleton]
      rw [hbh, ← hxh]
    · rw [hxh]
      exact Heap.get_set_self h _ none
  | cons q qs =>
    subst hps
    have hxps : x ∉ ((q :: qs).map Prod.fst) := by
      have h0 := hr.2.1
      rw [List.map_cons, List.nodup_cons] at h0
      exact h0.1
    have hnd2 : ((q :: qs).map Prod.fst).Nodup := by
      have h0 := hr.2.1
      rw [List.map_cons, List.nodup_cons] at h0
      exact h0.2
    have h5 : r.tail_ = ((q :: qs).map Prod.fst).getLastD x := by
      have h5 := hr.2.2.2.2.1
      rw [List.map_cons, List.getLastD_cons] at h5
      exact h5
    have htmem2 : r.tail_ ∈ (q :: qs).map Prod.fst := by
      rw [h5]
      exact getLastD_mem ((q :: qs).map Prod.fst) x (by simp)
    have hht : r.head_ ≠ r.tail_ := by
      rw [← hxh]
      exact fun he => hxps (he ▸ htmem2)
    obtain ⟨pt, hpt, hptt⟩ := List.mem_map.mp htmem2
    obtain ⟨tn, htn0, -⟩ := segFrom_alloc hrest pt hpt
    have htn : deref h r.tail_ = some tn := by rw [← hptt]; exact htn0
    set h1 : Heap T := h.set r.tail_ (some ⟨tn.data, n.next⟩) with hh1
    set h2 : Heap T := h1.set r.head_ none with hh2
    have hq1 : n.next = ((q :: qs).map Prod.fst).getD 0 0 := (segFrom_first hrest (by simp)).symm
    refine ⟨h2, ⟨n.next, r.tail_, r.sz_ - 1⟩, ?_, ?_, ?_, ?_⟩
    · simp only [LinkedList.pop_front, if_neg hh0, if_neg hht, hd, htn,
        Option.bind_eq_bind, Option.some_bind, ← hh1, ← hh2]
      rfl
    · rcases (q :: qs).eq_nil_or_concat with habs | ⟨qs', q', hcat⟩
      · simp at habs
      rw [List.concat_eq_append] at hcat
      have hq'tail : q'.1 = r.tail_ := by
        rw [h5, hcat, List.map_append, getLastD_append_right _ _ _ (by simp)]
        simp
      have hq'notin : q'.1 ∉ qs'.map Prod.fst := by
        have h6 := hnd2
        rw [hcat, List.map_append, List.nodup_append] at h6
        exact fun hmem => h6.2.2 hmem (by simp)
      have hrel : segFrom h1 n.next (q :: qs) n.next := by
        rw [hcat] at hrest ⊢
        have := segFrom_relink (c := n.next) hq'notin hrest (n := tn)
          (by rw [hq'tail]; exact htn)
        rw [hq'tail] at this
        exact this
      have hseg2 : segFrom h2 n.next (q :: qs) n.next := by
        refine segFrom_frame (fun pp hpp => ?_) hrel
        refine Heap.get_set_ne h1 _ (fun hph => ?_)
        rw [← hxh] at hph
        exact hxps (hph ▸ List.mem_map_of_mem Prod.fst hpp)
      refine ⟨?_, hnd2, ?_, ?_, ?_, hseg2⟩
      · have := hr.1
        simp only [List.length_cons] at this ⊢
        omega
      · intro y hy
        exact hr.2.2.1 y (by simp only [List.map_cons]; exact List.mem_cons_of_mem _ hy)
      · rw [headD_eq_getD]
        exact hq1
      · rw [h5]
        exact getLastD_irrel ((q :: qs).map Prod.fst) x 0 (by simp)
    · intro b hb
      have hbt : b ≠ r.tail_ := by
        intro hbe
        exact hb (by
          simp only [List.map_cons]
          exact List.mem_cons_of_mem _ (hbe ▸ htmem2))
      have hbh : b ≠ r.head_ := by
        intro hbe
        exact hb (by simp [hbe, ← hxh])
      rw [hh2, Heap.get_set_ne _ _ hbh, hh1, Heap.get_set_ne _ _ hbt]
    · rw [hxh, hh2]
      exact Heap.get_set_self h1 _ none

theorem rotate_ok {h : Heap T} {r : LinkedList} {ns : List (Addr × T)}
    (hr : isRing h r ns) :
    ∃ r', LinkedList.rotate h r = some r' ∧ isRing h r' (ns.rotate 1) ∧ r'.sz_ = r.sz_ := by
  cases hns : ns with
  | nil =>
    obtain rfl := isRing_nil_iff.mp (hns ▸ hr)
    exact ⟨⟨0, 0, 0⟩, rfl, by simpa using isRing_nil_iff.mpr rfl, rfl⟩
  | cons p ps =>
    obtain ⟨x, d⟩ := p
    subst hns
    obtain ⟨hxh, n, hd, hdata, hrest⟩ := isRing_seg hr
    cases hps : ps with
    | nil =>
      subst hps
      have hht : r.head_ = r.tail_ := by
        rw [← hxh, hr.2.2.2.2.1]
        simp
      refine ⟨r, ?_, ?_, rfl⟩
      · simp [LinkedList.rotate, hht]
      · rw [List.rotate_singleton]
        exact hr
    | cons q qs =>
      subst hps
      have hxps : x ∉ ((q :: qs).map Prod.fst) := by
        have h0 := hr.2.1
        rw [List.map_cons, List.nodup_cons] at h0
        exact h0.1
      have h5 : r.tail_ = ((q :: qs).map Prod.fst).getLastD x := by
        have h5 := hr.2.2.2.2.1
        rw [List.map_cons, List.getLastD_cons] at h5
        exact h5
      have htmem2 : r.tail_ ∈ (q :: qs).map Prod.fst := by
        rw [h5]
        exact getLastD_mem ((q :: qs).map Prod.fst) x (by simp)
      have hht : r.head_ ≠ r.tail_ := by
        rw [← hxh]
        exact fun he => hxps (he ▸ htmem2)
      obtain ⟨tn, htn, htnext⟩ := segFrom_getD_last (isRing_seg hr) (by simp)
      have htaddr : (((x, d) :: q :: qs).map Prod.fst).getD
          (((x, d) :: q :: qs).length - 1) 0 = r.tail_ := by
        rw [show ((x, d) :: q :: qs).length - 1
            = ((((x, d) :: q :: qs)).map Prod.fst).length - 1 by simp,
          ← getLastD_eq_getD, ← hr.2.2.2.2.1]
      rw [htaddr] at htn
      have hq1 : n.next = ((q :: qs).map Prod.fst).getD 0 0 :=
        (segFrom_first hrest (by simp)).symm
      have hh0 : r.head_ ≠ 0 := isRing_head_ne_zero hr (by simp)
      have hguard : ¬(r.head_ = 0 ∨ r.head_ = r.tail_) := by
        push_neg
        exact ⟨hh0, hht⟩
      have hrot : ((x, d) :: q :: qs).rotate 1 = (q :: qs) ++ [(x, d)] := by
        rw [List.rotate_cons_succ, List.rotate_zero]
      refine ⟨⟨n.next, tn.next, r.sz_⟩, ?_, ?_, rfl⟩
      · simp only [LinkedList.rotate, if_neg hguard, hd, htn, Option.bind_eq_bind,
          Option.some_bind]
        rfl
      · rw [hrot]
        refine ⟨?_, ?_, ?_, ?_, ?_, ?_⟩
        · have := hr.1
          simp only [List.length_cons, List.length_append, List.length_nil] at this ⊢
          omega
        · have hnod : (((q :: qs).map Prod.fst) ++ [x]).Nodup :=
            (List.perm_append_singleton _ _).nodup_iff.mpr (by simpa using hr.2.1)
          simpa using hnod
        · intro y hy
          rw [List.map_append, List.mem_append] at hy
          rcases hy with hy | hy
          · exact hr.2.2.1 y (by simp only [List.map_cons]; exact List.mem_cons_of_mem _ hy)
          · have hyx : y = x := by simpa using hy
            exact hr.2.2.1 y (by simp [hyx])
        · rw [List.map_append, headD_append_left _ _ _ (by simp), headD_eq_getD]
          exact hq1
        · rw [List.map_append, getLastD_append_right _ _ _ (by simp), htnext, ← hxh]
          simp [List.getLastD_cons]
        · refine segFrom_append.mpr ⟨x, ?_, ?_⟩
          · rw [hxh]
            exact hrest
          · exact ⟨rfl, n, by rw [hxh]; exact hd, hdata, rfl⟩

theorem rotIter_ok {h : Heap T} :
    ∀ (k : Nat) {r : LinkedList} {ns : List (Addr × T)}, isRing h r ns →
      ∃ r', rotIter h r k = some r' ∧ isRing h r' (ns.rotate k) ∧ r'.sz_ = r.sz_ := by
  intro k
  induction k with
  | zero => exact fun hr => ⟨_, rfl, by simpa using hr, rfl⟩
  | succ m ih =>
    intro r ns hr
    obtain ⟨r1, hrot, hr1, hsz1⟩ := rotate_ok hr
    obtain ⟨r', hiter, hr', hsz'⟩ := ih hr1
    refine ⟨r', ?_, ?_, by rw [hsz', hsz1]⟩
    · simp only [rotIter, hrot, Option.bind_eq_bind, Option.some_bind]
      exact hiter
    · rw [List.rotate_rotate, Nat.add_comm] at hr'
      exact hr'

theorem clear_ok {h : Heap T} {r : LinkedList} {ns : List (Addr × T)}
    (hr : isRing h r ns) :
    ∃ h', LinkedList.clear h r = some (h', ⟨0, 0, 0⟩) ∧
      (∀ x ∈ ns.map Prod.fst, h' x = none) ∧
      (∀ x, x ∉ ns.map Prod.fst → h' x = h x) := by
  cases hns : ns with
  | nil =>
    obtain rfl := isRing_nil_iff.mp (hns ▸ hr)
    exact ⟨h, rfl, by simp, fun x _ => rfl⟩
  | cons p ps =>
    have hne : ns ≠ [] := by simp [hns]
    rw [← hns]
    have hh0 : r.head_ ≠ 0 := isRing_head_ne_zero hr hne
    obtain ⟨h', hrun, hin, hout⟩ := clearLoop_ok hr.2.1 (isRing_seg hr)
    refine ⟨h', ?_, hin, hout⟩
    simp only [LinkedList.clear, if_neg hh0, hr.1, hrun, Option.bind_eq_bind,
      Option.some_bind]
    rfl

theorem mergeWith_ok {h : Heap T} {r o : LinkedList} {ns ms : List (Addr × T)}
    (hr : isRing h r ns) (ho : isRing h o ms)
    (hdisj : ∀ x ∈ ns.map Prod.fst, x ∉ ms.map Prod.fst) :
    ∃ h' r', LinkedList.mergeWith h r o = some (h', r', ⟨0, 0, 0⟩) ∧
      isRing h' r' (ns ++ ms) ∧ r'.sz_ = ns.length + ms.length ∧
      (∀ b, b ∉ ns.map Prod.fst → b ∉ ms.map Prod.fst → h' b = h b) ∧
      (ms = [] → h' = h ∧ r' = r) ∧
      (ns = [] → h' = h ∧ r' = ⟨o.head_, o.tail_, o.sz_⟩) := by
  cases hms : ms with
  | nil =>
    obtain rfl := isRing_nil_iff.mp (hms ▸ ho)
    refine ⟨h, r, by simp [LinkedList.mergeWith], by simpa using hr, ?_, fun _ _ _ => rfl,
      fun _ => ⟨rfl, rfl⟩, ?_⟩
    · rw [hr.1]
      simp
    · intro hns
      obtain rfl := isRing_nil_iff.mp (hns ▸ hr)
      exact ⟨rfl, rfl⟩
  | cons pm pms =>
    have hmne : ms ≠ [] := by simp [hms]
    rw [← hms]
    clear hms
    have hohead : o.head_ ≠ 0 := isRing_head_ne_zero ho hmne
    cases hns : ns with
    | nil =>
      obtain rfl := isRing_nil_iff.mp (hns ▸ hr)
      refine ⟨h, ⟨o.head_, o.tail_, o.sz_⟩, ?_, ?_, ?_, fun _ _ _ => rfl, ?_, fun _ => ⟨rfl, rfl⟩⟩
      · simp [LinkedList.mergeWith, hohead]
      · exact ⟨ho.1, ho.2.1, ho.2.2.1, ho.2.2.2.1, ho.2.2.2.2.1, ho.2.2.2.2.2⟩
      · rw [ho.1]
        simp
      · intro habs
        exact absurd habs hmne
    | cons pn pns =>
      have hnne : ns ≠ [] := by simp [hns]
      rw [← hns]
      clear hns
      have hrhead : r.head_ ≠ 0 := isRing_head_ne_zero hr hnne
      have hrtmem : r.tail_ ∈ ns.map Prod.fst := isRing_tail_mem hr hnne
      have hotmem : o.tail_ ∈ ms.map Prod.fst := isRing_tail_mem ho hmne
      have hto : r.tail_ ∉ ms.map Prod.fst := hdisj _ hrtmem
      have htno : r.tail_ ≠ o.tail_ := fun he => hto (he ▸ hotmem)
      obtain ⟨pt, hpt, hptt⟩ := List.mem_map.mp hrtmem
      obtain ⟨tn, htn0, -⟩ := segFrom_alloc (isRing_seg hr) pt hpt
      have htn : deref h r.tail_ = some tn := by rw [← hptt]; exact htn0
      obtain ⟨po, hpo, hpoo⟩ := List.mem_map.mp hotmem
      obtain ⟨otn, hotn0, -⟩ := segFrom_alloc (isRing_seg ho) po hpo
      have hotn : deref h o.tail_ = some otn := by rw [← hpoo]; exact hotn0
      set h1 : Heap T := h.set r.tail_ (some ⟨tn.data, o.head_⟩) with hh1
      have hotn1 : deref h1 o.tail_ = some otn := by
        rw [hh1, deref_set_ne _ _ (Ne.symm htno)]
        exact hotn
      set h2 : Heap T := h1.set o.tail_ (some ⟨otn.data, r.head_⟩) with hh2
      refine ⟨h2, ⟨r.head_, o.tail_, r.sz_ + o.sz_⟩, ?_, ?_, ?_, ?_, ?_, ?_⟩
      · simp only [LinkedList.mergeWith, if_neg hohead, if_neg hrhead, htn, hotn1,
          Option.bind_eq_bind, Option.some_bind, ← hh1, ← hh2]
        rfl
      · -- the merged representation
        have hsegA : segFrom h2 r.head_ ns o.head_ := by
          rcases ns.eq_nil_or_concat with habs | ⟨qs, q, hcat⟩
          · exact absurd habs hnne
          rw [List.concat_eq_append] at hcat
          have hqtail : q.1 = r.tail_ := by
            have h5 := hr.2.2.2.2.1
            rw [hcat, List.map_append, getLastD_append_right _ _ _ (by simp)] at h5
            rw [h5]
            simp
          have hqnotin : q.1 ∉ qs.map Prod.fst := by
            have h6 := hr.2.1
            rw [hcat, List.map_append, List.nodup_append] at h6
            exact fun hmem => h6.2.2 hmem (by simp)
          have hrel : segFrom h1 r.head_ ns o.head_ := by
            rw [hcat]
            have hseg := isRing_seg hr
            rw [hcat] at hseg
            have := segFrom_relink (c := o.head_) hqnotin hseg (n := tn)
              (by rw [hqtail]; exact htn)
            rw [hqtail] at this
            exact this
          refine segFrom_frame (fun pp hpp => ?_) hrel
          refine Heap.get_set_ne h1 _ (fun hpe => ?_)
          exact (hpe ▸ hdisj _ (List.mem_map_of_mem Prod.fst hpp)) hotmem
        have hsegB : segFrom h2 o.head_ ms r.head_ := by
          have hseg1 : segFrom h1 o.head_ ms o.head_ := by
            refine segFrom_frame (fun pp hpp => ?_) (isRing_seg ho)
            refine Heap.get_set_ne h _ (fun hpe => ?_)
            exact (hdisj _ (hpe ▸ hrtmem : _)) (List.mem_map_of_mem Prod.fst hpp)
          rcases ms.eq_nil_or_concat with habs | ⟨qs, q, hcat⟩
          · exact absurd habs hmne
          rw [List.concat_eq_append] at hcat
          have hqtail : q.1 = o.tail_ := by
            have h5 := ho.2.2.2.2.1
            rw [hcat, List.map_append, getLastD_append_right _ _ _ (by simp)] at h5
            rw [h5]
            simp
          have hqnotin : q.1 ∉ qs.map Prod.fst := by
            have h6 := ho.2.1
            rw [hcat, List.map_append, List.nodup_append] at h6
            exact fun hmem => h6.2.2 hmem (by simp)
          rw [hcat]
          rw [hcat] at hseg1
          have := segFrom_relink (c := r.head_) hqnotin hseg1 (n := otn)
            (by rw [hqtail]; exact hotn1)
          rw [hqtail] at this
          exact this
        refine ⟨?_, ?_, ?_, ?_, ?_, segFrom_append.mpr ⟨o.head_, hsegA, hsegB⟩⟩
        · rw [hr.1, ho.1]
          simp
        · rw [List.map_append, List.nodup_append]
          exact ⟨hr.2.1, ho.2.1, fun x hx => hdisj x hx⟩
        · intro y hy
          rw [List.map_append, List.mem_append] at hy
          rcases hy with hy | hy
          · exact hr.2.2.1 y hy
          · exact ho.2.2.1 y hy
        · rw [List.map_append, headD_append_left _ _ _ (by simpa using hnne)]
          exact hr.2.2.2.1
        · rw [List.map_append, getLastD_append_right _ _ _ (by simpa using hmne)]
          exact ho.2.2.2.2.1
      · rw [hr.1, ho.1]
      · intro b hbn hbm
        have hbt : b ≠ r.tail_ := fun he => hbn (he ▸ hrtmem)
        have hbo : b ≠ o.tail_ := fun he => hbm (he ▸ hotmem)
        rw [hh2, Heap.get_set_ne _ _ hbo, hh1, Heap.get_set_ne _ _ hbt]
      · intro habs
        exact absurd habs hmne
      · intro habs
        exact absurd habs hnne

/-! ## The slow/fast split loop -/

theorem getD_take (l : List α) (d : α) :
    ∀ (k i : Nat), i < k → (l.take k).getD i d = l.getD i d := by
  induction l with
  | nil => intro k i _; simp
  | cons x xs ih =>
    intro k i hik
    cases k with
    | zero => exact absurd hik (Nat.not_lt_zero i)
    | succ m =>
      cases i with
      | zero => simp
      | succ j =>
        simp only [List.take_succ_cons, List.getD_cons_succ]
        exact ih m j (Nat.lt_of_succ_lt_succ hik)

theorem isRing_getD_inj {h : Heap T} {r : LinkedList} {ns : List (Addr × T)}
    (hr : isRing h r ns) :
    ∀ i < ns.length, ∀ j < ns.length,
      (ns.map Prod.fst).getD i 0 = (ns.map Prod.fst).getD j 0 → i = j := by
  intro i hi j hj he
  exact nodup_getD_inj hr.2.1 0 (by simpa using hi) (by simpa using hj) he

theorem isRing_ring_next {h : Heap T} {r : LinkedList} {ns : List (Addr × T)}
    (hr : isRing h r ns) (hne : ns ≠ []) :
    ∀ i < ns.length, ∃ nd : Node T, deref h ((ns.map Prod.fst).getD i 0) = some nd ∧
      nd.next = (ns.map Prod.fst).getD ((i + 1) % ns.length) 0 :=
  fun i hi => segFrom_ring_next (isRing_seg hr) hne i hi

theorem bindStep {α β : Type} {x : Option α} {a : α} {f : α → Option β}
    (hx : x = some a) : Bind.bind x f = f a := by
  rw [hx]
  rfl

theorem splitLoop_succ (h : Heap T) (hd slow fast : Addr) (f : Nat) :
    LinkedList.splitLoop h hd slow fast (f + 1) =
      (do
        let fn ← deref h fast
        if fn.next = hd then pure (slow, fast)
        else do
          let fn2 ← deref h fn.next
          if fn2.next = hd then pure (slow, fast)
          else do
            let sn ← deref h slow
            LinkedList.splitLoop h hd sn.next fn2.next f) := rfl

theorem pos_of_two_le {n : Nat} (h : 2 ≤ n) : 0 < n :=
  Nat.lt_of_lt_of_le Nat.zero_lt_two h

theorem splitLoop_go {h : Heap T} (as : List Addr) (n : Nat)
    (hn : as.length = n) (hn2 : 2 ≤ n)
    (hnext : ∀ i < n, ∃ nd : Node T, deref h (as.getD i 0) = some nd ∧
      nd.next = as.getD ((i + 1) % n) 0)
    (hinj : ∀ i < n, ∀ j < n, as.getD i 0 = as.getD j 0 → i = j) :
    ∀ fuel k, 2 * k < n → (n - 1) / 2 - k + 1 ≤ fuel →
      LinkedList.splitLoop h (as.getD 0 0) (as.getD k 0) (as.getD (2 * k) 0) fuel =
        some (as.getD ((n - 1) / 2) 0, as.getD (2 * ((n - 1) / 2)) 0) := by
  intro fuel
  induction fuel with
  | zero =>
    intro k hk hfuel
    exact absurd hfuel (Nat.not_succ_le_zero _)
  | succ f ih =>
    intro k hk hfuel
    obtain ⟨fn, hfn, hfnext⟩ := hnext (2 * k) hk
    rw [splitLoop_succ, bindStep hfn]
    rcases Nat.lt_or_ge (2 * k + 1) n with hlt1 | hge1
    · -- fast->next is not yet the head
      rw [Nat.mod_eq_of_lt hlt1] at hfnext
      have hne1 : ¬(fn.next = as.getD 0 0) := by
        rw [hfnext]
        intro he
        exact Nat.succ_ne_zero _ (hinj _ hlt1 0 (pos_of_two_le hn2) he)
      rw [if_neg hne1]
      obtain ⟨fn2, hfn2, hfn2next⟩ := hnext (2 * k + 1) hlt1
      rw [hfnext, bindStep hfn2]
      rcases Nat.lt_or_ge (2 * k + 2) n with hlt2 | hge2
      · -- two more steps stay inside the ring: loop body runs
        rw [Nat.mod_eq_of_lt hlt2] at hfn2next
        have hne2 : ¬(fn2.next = as.getD 0 0) := by
          rw [hfn2next]
          intro he
          exact Nat.succ_ne_zero _ (hinj _ hlt2 0 (pos_of_two_le hn2) he)
        rw [if_neg hne2]
        obtain ⟨sn, hsn, hsnnext⟩ := hnext k
          (Nat.lt_of_le_of_lt (Nat.le_mul_of_pos_left k Nat.zero_lt_two) hk)
        rw [bindStep hsn]
        obtain ⟨e1, e2, e3⟩ : k + 1 < n ∧ 2 * k + 2 = 2 * (k + 1) ∧
            (n - 1) / 2 - (k + 1) + 1 ≤ f := by omega
        rw [Nat.mod_eq_of_lt e1] at hsnnext
        rw [hsnnext, hfn2next, e2]
        exact ih (k + 1) (e2 ▸ hlt2) e3
      · -- fast->next->next is the head: even length, loop exits
        obtain ⟨e1, e2⟩ : 2 * k + 1 + 1 = n ∧ k = (n - 1) / 2 := by omega
        rw [e1, Nat.mod_self] at hfn2next
        rw [if_pos (by rw [hfn2next])]
        rw [e2]
        rfl
    · -- fast->next is the head: odd length, loop exits
      obtain ⟨e1, e2⟩ : 2 * k + 1 = n ∧ k = (n - 1) / 2 := by omega
      rw [e1, Nat.mod_self] at hfnext
      rw [if_pos (by rw [hfnext])]
      rw [e2]
      rfl

/-! ## splitIntoTwo -/

theorem splitIntoTwo_run_nil {h hA hB : Heap T} {r r1 r2 d1 d2 : LinkedList}
    (hclr1 : LinkedList.clear h r1 = some (hA, d1))
    (hclr2 : LinkedList.clear hA r2 = some (hB, d2))
    (hh0 : r.head_ = 0) :
    LinkedList.splitIntoTwo h r r1 r2 = some (hB, r, d1, d2) := by
  simp only [LinkedList.splitIntoTwo, hclr1, hclr2, Option.bind_eq_bind, Option.some_bind,
    if_pos hh0]
  rfl

theorem splitIntoTwo_run_one {h hA hB : Heap T} {r r1 r2 d1 d2 : LinkedList} {tn : Node T}
    (hclr1 : LinkedList.clear h r1 = some (hA, d1))
    (hclr2 : LinkedList.clear hA r2 = some (hB, d2))
    (hh0 : ¬r.head_ = 0) (hsz : r.sz_ = 1)
    (htn : deref hB r.tail_ = some tn) :
    LinkedList.splitIntoTwo h r r1 r2 =
      some (hB.set r.tail_ (some ⟨tn.data, r.head_⟩), ⟨0, 0, 0⟩,
        ⟨r.head_, r.tail_, 1⟩, d2) := by
  simp only [LinkedList.splitIntoTwo, hclr1, hclr2, Option.bind_eq_bind, Option.some_bind,
    if_neg hh0, hsz, if_pos rfl, htn]
  rfl

theorem splitIntoTwo_run {h hA hB : Heap T} {r r1 r2 d1 d2 : LinkedList}
    {slow fast fast2 : Addr} {fn fn2 sn f2n : Node T}
    (hclr1 : LinkedList.clear h r1 = some (hA, d1))
    (hclr2 : LinkedList.clear hA r2 = some (hB, d2))
    (hh0 : ¬r.head_ = 0) (hsz : ¬r.sz_ = 1)
    (hloop : LinkedList.splitLoop hB r.head_ r.head_ r.head_ r.sz_ = some (slow, fast))
    (hfn : deref hB fast = some fn)
    (hfn2 : deref hB fn.next = some fn2)
    (hfast2 : (if fn2.next = r.head_ then fn.next else fast) = fast2)
    (hsn : deref hB slow = some sn)
    (hf2n : deref (hB.set slow (some ⟨sn.data, r.head_⟩)) fast2 = some f2n) :
    LinkedList.splitIntoTwo h r r1 r2 =
      some ((hB.set slow (some ⟨sn.data, r.head_⟩)).set fast2 (some ⟨f2n.data, sn.next⟩),
        ⟨0, 0, 0⟩, ⟨r.head_, slow, (r.sz_ + 1) / 2⟩,
        ⟨sn.next, fast2, r.sz_ - (r.sz_ + 1) / 2⟩) := by
  simp only [LinkedList.splitIntoTwo, hclr1, hclr2, Option.bind_eq_bind, Option.some_bind,
    if_neg hh0, if_neg hsz, hloop, hfn, hfn2, hfast2, hsn, hf2n]
  rfl

theorem splitIntoTwo_ok {h : Heap T} {r r1 r2 : LinkedList}
    {ns ns1 ns2 : List (Addr × T)}
    (hr : isRing h r ns) (hr1 : isRing h r1 ns1) (hr2 : isRing h r2 ns2)
    (d01 : ∀ x ∈ ns.map Prod.fst, x ∉ ns1.map Prod.fst)
    (d02 : ∀ x ∈ ns.map Prod.fst, x ∉ ns2.map Prod.fst)
    (d12 : ∀ x ∈ ns1.map Prod.fst, x ∉ ns2.map Prod.fst) :
    ∃ h' f s, LinkedList.splitIntoTwo h r r1 r2 = some (h', ⟨0, 0, 0⟩, f, s) ∧
      isRing h' f (ns.take ((ns.length + 1) / 2)) ∧
      isRing h' s (ns.drop ((ns.length + 1) / 2)) ∧
      f.sz_ = (ns.length + 1) / 2 ∧ s.sz_ = ns.length - (ns.length + 1) / 2 ∧
      (∀ x ∈ ns1.map Prod.fst, h' x = none) ∧
      (∀ x ∈ ns2.map Prod.fst, h' x = none) ∧
      (∀ b, b ∉ ns.map Prod.fst → b ∉ ns1.map Prod.fst → b ∉ ns2.map Prod.fst →
        h' b = h b) := by
  obtain ⟨hA, hclr1, hin1, hout1⟩ := clear_ok hr1
  have hrA : isRing hA r ns :=
    isRing_frame
      (fun p hp => hout1 _ (d01 _ (List.mem_map_of_mem Prod.fst hp))) hr
  have hr2A : isRing hA r2 ns2 :=
    isRing_frame
      (fun p hp => hout1 _ (fun hmem => d12 _ hmem (List.mem_map_of_mem Prod.fst hp))) hr2
  obtain ⟨hB, hclr2, hin2, hout2⟩ := clear_ok hr2A
  have hrB : isRing hB r ns :=
    isRing_frame
      (fun p hp => hout2 _ (d02 _ (List.mem_map_of_mem Prod.fst hp))) hrA
  have hrel1 : ∀ x ∈ ns1.map Prod.fst, hB x = none := by
    intro x hx
    rw [hout2 x (fun hmem => d12 x hx hmem)]
    exact hin1 x hx
  have houtB : ∀ b, b ∉ ns1.map Prod.fst → b ∉ ns2.map Prod.fst → hB b = h b := by
    intro b hb1 hb2
    rw [hout2 b hb2, hout1 b hb1]
  rcases hlen0 : ns.length with _ | nlen1
  · -- the receiver is empty
    obtain rfl : ns = [] := List.length_eq_zero.mp hlen0
    obtain rfl := isRing_nil_iff.mp hr
    refine ⟨hB, ⟨0, 0, 0⟩, ⟨0, 0, 0⟩, ?_, isRing_nil_iff.mpr rfl, isRing_nil_iff.mpr rfl,
      rfl, rfl, hrel1, hin2, fun b _ hb1 hb2 => houtB b hb1 hb2⟩
    exact splitIntoTwo_run_nil hclr1 hclr2 rfl
  rcases nlen1 with _ | nlen2
  · -- a single node
    obtain ⟨p, rfl⟩ := List.length_eq_one.mp hlen0
    obtain ⟨x, d⟩ := p
    obtain ⟨hxh, n, hd, hdata, hrest⟩ := isRing_seg hrB
    have hh0 : r.head_ ≠ 0 := isRing_head_ne_zero hrB (by simp)
    have hht : r.head_ = r.tail_ := by
      rw [← hxh, hrB.2.2.2.2.1]
      simp
    have hsz1 : r.sz_ = 1 := hrB.1
    have hxns1 : x ∉ ns1.map Prod.fst := d01 x (by simp)
    have hxns2 : x ∉ ns2.map Prod.fst := d02 x (by simp)
    refine ⟨hB.set r.tail_ (some ⟨n.data, r.head_⟩), ⟨r.head_, r.tail_, 1⟩, ⟨0, 0, 0⟩,
      ?_, ?_, isRing_nil_iff.mpr rfl, rfl, rfl, ?_, ?_, ?_⟩
    · exact splitIntoTwo_run_one hclr1 hclr2 hh0 hsz1 (by rw [← hht]; exact hd)
    · -- outFirst is the singleton ring
      refine ⟨rfl, by simp, ?_, by simpa using hxh.symm, ?_, ?_⟩
      · intro y hy
        exact hrB.2.2.1 y hy
      · rw [← hht]
        simpa using hxh.symm
      · refine ⟨hxh, Node.mk n.data r.head_, ?_, by rw [hdata], rfl⟩
        rw [← hht]
        exact deref_set_self _ _ hh0
    · intro y hy
      have hyx : y ≠ r.tail_ := by
        rw [← hht, ← hxh]
        exact fun he => hxns1 (he ▸ hy)
      rw [Heap.get_set_ne _ _ hyx]
      exact hrel1 y hy
    · intro y hy
      have hyx : y ≠ r.tail_ := by
        rw [← hht, ← hxh]
        exact fun he => hxns2 (he ▸ hy)
      rw [Heap.get_set_ne _ _ hyx]
      exact hin2 y hy
    · intro b hb hb1 hb2
      have hbx : b ≠ r.tail_ := by
        rw [← hht, ← hxh]
        exact fun he => hb (he ▸ by simp)
      rw [Heap.get_set_ne _ _ hbx]
      exact houtB b hb1 hb2
  · -- at least two nodes: the slow/fast walk runs
    rw [← hlen0]
    have hn2 : 2 ≤ ns.length := by
      rw [hlen0]
      exact Nat.succ_le_succ (Nat.succ_le_succ (Nat.zero_le nlen2))
    have hne : ns ≠ [] := List.ne_nil_of_length_pos (by rw [hlen0]; exact Nat.succ_pos _)
    have hh0 : r.head_ ≠ 0 := isRing_head_ne_zero hrB hne
    have hheadD : (ns.map Prod.fst).getD 0 0 = r.head_ := segFrom_first (isRing_seg hrB) hne
    have hnext := isRing_ring_next hrB hne
    have hinj := isRing_getD_inj hrB
    set n : Nat := ns.length with hnn
    set as : List Addr := ns.map Prod.fst with has
    set t : Nat := (n - 1) / 2 with hht
    set n1 : Nat := (n + 1) / 2 with hn1
    obtain ⟨htn1, hn1lt, hn1pos, hk0, hf0, htlt, hlast_lt, hm1, htne, h1n, hn2lt,
        hn21, hn1_1lt, hn1_1t, hyl, hnn1pos, hpar⟩ :
        t + 1 = n1 ∧ n1 < n ∧ 1 ≤ n1 ∧ 2 * 0 < n ∧ t - 0 + 1 ≤ n ∧ t < n ∧
          n - 1 < n ∧ n - 1 + 1 = n ∧ t ≠ n - 1 ∧ 1 < n ∧ n - 2 < n ∧
          n - 2 + 1 = n - 1 ∧ n1 - 1 < n1 ∧ n1 - 1 = t ∧
          n1 + (n - n1 - 1) = n - 1 ∧ 0 < n - n1 ∧
          (n = 2 * t + 1 ∨ n = 2 * t + 2) := by
      omega
    have hszn : r.sz_ = n := hrB.1
    have hloopEq : LinkedList.splitLoop hB r.head_ r.head_ r.head_ n =
        some (as.getD t 0, as.getD (2 * t) 0) := by
      have h0' := splitLoop_go (h := hB) as n (by rw [has, List.length_map, ← hnn]) hn2
        hnext hinj n 0 hk0 hf0
      rw [Nat.mul_zero, hheadD, ← hht] at h0'
      exact h0'
    -- the three nodes the post-loop code reads
    obtain ⟨sn, hsn, hsnext0⟩ := hnext t htlt
    have hsnext : sn.next = as.getD n1 0 := by
      rw [hsnext0, htn1, Nat.mod_eq_of_lt hn1lt]
    obtain ⟨nf, hnf, hnfnext0⟩ := hnext (n - 1) hlast_lt
    have hnfnext : nf.next = r.head_ := by
      rw [hnfnext0, hm1, Nat.mod_self, hheadD]
    have hsAfA : as.getD (n - 1) 0 ≠ as.getD t 0 := by
      intro he
      exact htne (hinj t htlt (n - 1) hlast_lt he.symm)
    set hC : Heap T := hB.set (as.getD t 0) (some ⟨sn.data, r.head_⟩) with hhC
    have hnfC : deref hC (as.getD (n - 1) 0) = some nf := by
      rw [hhC, deref_set_ne _ _ hsAfA]
      exact hnf
    set hD : Heap T := hC.set (as.getD (n - 1) 0) (some ⟨nf.data, as.getD n1 0⟩) with hhD
    have hszne : ¬r.sz_ = 1 := by
      rw [hszn]
      intro habs
      rw [habs] at hn2
      exact absurd hn2 (by decide)
    have hloopB : LinkedList.splitLoop hB r.head_ r.head_ r.head_ r.sz_ =
        some (as.getD t 0, as.getD (2 * t) 0) := by
      rw [hszn]
      exact hloopEq
    have hcomp : LinkedList.splitIntoTwo h r r1 r2 =
        some (hD, ⟨0, 0, 0⟩, ⟨r.head_, as.getD t 0, n1⟩,
          ⟨as.getD n1 0, as.getD (n - 1) 0, n - n1⟩) := by
      rcases hpar with hodd | heven
      · -- odd length: the loop exits on fast->next == head, no adjustment
        have h2t : 2 * t = n - 1 := by
          rw [hodd]
          exact (Nat.add_sub_cancel (2 * t) 1).symm
        rw [h2t] at hloopB
        obtain ⟨n0, hn0, hn0next0⟩ := hnext 0 (pos_of_two_le hn2)
        have hn0next : n0.next = as.getD 1 0 := by
          rw [hn0next0, Nat.mod_eq_of_lt h1n]
        have hn0head : deref hB r.head_ = some n0 := by rw [← hheadD]; exact hn0
        have hne10 : ¬(n0.next = r.head_) := by
          rw [hn0next, ← hheadD]
          intro he
          exact Nat.one_ne_zero (hinj 1 h1n 0 (pos_of_two_le hn2) he)
        have hrun := splitIntoTwo_run hclr1 hclr2 hh0 hszne hloopB hnf
          (show deref hB nf.next = some n0 by rw [hnfnext]; exact hn0head)
          (if_neg hne10) hsn
          (show deref (hB.set (as.getD t 0) (some ⟨sn.data, r.head_⟩))
              (as.getD (n - 1) 0) = some nf by rw [← hhC]; exact hnfC)
        rw [hszn, ← hn1, hsnext, ← hhC, ← hhD] at hrun
        exact hrun
      · -- even length: the loop exits on fast->next->next == head, fast advances
        have h2t : 2 * t = n - 2 := by
          rw [heven]
          exact (Nat.add_sub_cancel (2 * t) 2).symm
        rw [h2t] at hloopB
        obtain ⟨gn, hgn, hgnext0⟩ := hnext (n - 2) hn2lt
        have hgnext : gn.next = as.getD (n - 1) 0 := by
          rw [hgnext0, hn21, Nat.mod_eq_of_lt hlast_lt]
        have hrun := splitIntoTwo_run hclr1 hclr2 hh0 hszne hloopB hgn
          (show deref hB gn.next = some nf by rw [hgnext]; exact hnf)
          (show (if nf.next = r.head_ then gn.next else as.getD (n - 2) 0) =
              as.getD (n - 1) 0 by rw [if_pos hnfnext]; exact hgnext)
          hsn
          (show deref (hB.set (as.getD t 0) (some ⟨sn.data, r.head_⟩))
              (as.getD (n - 1) 0) = some nf by rw [← hhC]; exact hnfC)
        rw [hszn, ← hn1, hsnext, ← hhC, ← hhD] at hrun
        exact hrun
    -- decompose the ring into its two halves
    set xs : List (Addr × T) := ns.take n1 with hxs
    set ys : List (Addr × T) := ns.drop n1 with hys
    have hxs_map : xs.map Prod.fst = as.take n1 := by rw [hxs, has, List.map_take]
    have hys_map : ys.map Prod.fst = as.drop n1 := by rw [hys, has, List.map_drop]
    have haslen : as.length = n := by rw [has, List.length_map, ← hnn]
    have hxslen : xs.length = n1 := by
      rw [hxs, List.length_take, ← hnn]
      exact Nat.min_eq_left (Nat.le_of_lt hn1lt)
    have hyslen : ys.length = n - n1 := by
      rw [hys, List.length_drop]
    have hxsne : xs ≠ [] := List.ne_nil_of_length_pos (by rw [hxslen]; exact hn1pos)
    have hysne : ys ≠ [] := List.ne_nil_of_length_pos (by rw [hyslen]; exact hnn1pos)
    have hndsplit : ((as.take n1).Nodup ∧ (as.drop n1).Nodup ∧
        (as.take n1).Disjoint (as.drop n1)) := by
      have hnd := hrB.2.1
      rw [← has, ← List.take_append_drop n1 as, List.nodup_append] at hnd
      exact hnd
    have hxlast : (xs.map Prod.fst).getLastD 0 = as.getD t 0 := by
      rw [hxs_map, getLastD_eq_getD, List.length_take, haslen,
        Nat.min_eq_left (Nat.le_of_lt hn1lt), getD_take as 0 n1 (n1 - 1) hn1_1lt, hn1_1t]
    have hylast : (ys.map Prod.fst).getLastD 0 = as.getD (n - 1) 0 := by
      rw [hys_map, getLastD_eq_getD, List.length_drop, haslen, getD_drop, hyl]
    have hxs_map_ne : xs.map Prod.fst ≠ [] := by simpa using hxsne
    have hys_map_ne : ys.map Prod.fst ≠ [] := by simpa using hysne
    have hsAmem : as.getD t 0 ∈ as.take n1 := by
      rw [← hxs_map, ← hxlast]
      exact getLastD_mem _ 0 hxs_map_ne
    have hfAmem : as.getD (n - 1) 0 ∈ as.drop n1 := by
      rw [← hys_map, ← hylast]
      exact getLastD_mem _ 0 hys_map_ne
    have hsAnotys : as.getD t 0 ∉ as.drop n1 := hndsplit.2.2 hsAmem
    have hfAnotxs : as.getD (n - 1) 0 ∉ as.take n1 := by
      intro habs
      exact hndsplit.2.2 habs hfAmem
    have hsAns : as.getD t 0 ∈ as := List.take_subset n1 as hsAmem
    have hfAns : as.getD (n - 1) 0 ∈ as := List.drop_subset n1 as hfAmem
    -- split the closed chain into the two segments
    have hsegsplit : ∃ c, segFrom hB r.head_ xs c ∧ segFrom hB c ys r.head_ := by
      have hseg := isRing_seg hrB
      rw [← List.take_append_drop n1 ns] at hseg
      exact segFrom_append.mp hseg
    obtain ⟨c, hsegX, hsegY⟩ := hsegsplit
    have hcval : c = as.getD n1 0 := by
      have := segFrom_first hsegY hysne
      rw [hys_map, getD_drop, Nat.add_zero] at this
      exact this.symm
    rw [hcval] at hsegX hsegY
    -- relink the first half into a closed ring
    have hsegX2 : segFrom hC r.head_ xs r.head_ := by
      rcases xs.eq_nil_or_concat with habs | ⟨qs, qx, hcat⟩
      · exact absurd habs hxsne
      rw [List.concat_eq_append] at hcat
      have hqx : qx.1 = as.getD t 0 := by
        rw [← hxlast, hcat, List.map_append, getLastD_append_right _ _ _ (by simp)]
        simp
      have hqxnot : qx.1 ∉ qs.map Prod.fst := by
        have hx := hndsplit.1
        rw [← hxs_map, hcat, List.map_append, List.nodup_append] at hx
        exact fun hmem => hx.2.2 hmem (by simp)
      rw [hcat]
      rw [hcat] at hsegX
      have := segFrom_relink (c := r.head_) hqxnot hsegX (n := sn)
        (by rw [hqx]; exact hsn)
      rw [hqx] at this
      exact this
    have hsegX3 : segFrom hD r.head_ xs r.head_ := by
      refine segFrom_frame (fun pp hpp => ?_) hsegX2
      rw [hhD]
      refine Heap.get_set_ne hC _ (fun hpe => ?_)
      exact hfAnotxs (hpe ▸ (hxs_map ▸ List.mem_map_of_mem Prod.fst hpp))
    -- relink the second half into a closed ring
    have hsegY2 : segFrom hC (as.getD n1 0) ys r.head_ := by
      refine segFrom_frame (fun pp hpp => ?_) hsegY
      rw [hhC]
      refine Heap.get_set_ne hB _ (fun hpe => ?_)
      exact hsAnotys (hpe ▸ (hys_map ▸ List.mem_map_of_mem Prod.fst hpp))
    have hsegY3 : segFrom hD (as.getD n1 0) ys (as.getD n1 0) := by
      rcases ys.eq_nil_or_concat with habs | ⟨qs, qy, hcat⟩
      · exact absurd habs hysne
      rw [List.concat_eq_append] at hcat
      have hqy : qy.1 = as.getD (n - 1) 0 := by
        rw [← hylast, hcat, List.map_append, getLastD_append_right _ _ _ (by simp)]
        simp
      have hqynot : qy.1 ∉ qs.map Prod.fst := by
        have hy := hndsplit.2.1
        rw [← hys_map, hcat, List.map_append, List.nodup_append] at hy
        exact fun hmem => hy.2.2 hmem (by simp)
      rw [hcat]
      rw [hcat] at hsegY2
      have := segFrom_relink (c := as.getD n1 0) hqynot hsegY2 (n := nf)
        (by rw [hqy]; exact hnfC)
      rw [hqy] at this
      exact this
    -- now assemble the result
    have hDloc : ∀ b, b ≠ as.getD t 0 → b ≠ as.getD (n - 1) 0 → hD b = hB b := by
      intro b hbs hbf
      rw [hhD, Heap.get_set_ne _ _ hbf, hhC, Heap.get_set_ne _ _ hbs]
    refine ⟨hD, ⟨r.head_, as.getD t 0, n1⟩, ⟨as.getD n1 0, as.getD (n - 1) 0, n - n1⟩,
      hcomp, ?_, ?_, rfl, rfl, ?_, ?_, ?_⟩
    · -- outFirst
      refine ⟨by simpa using hxslen.symm, by rw [hxs_map]; exact hndsplit.1, ?_, ?_, ?_, hsegX3⟩
      · intro y hy
        refine hrB.2.2.1 y ?_
        rw [hxs_map] at hy
        exact List.take_subset n1 as hy
      · rw [hxs_map, headD_take as 0 n1 hn1pos, headD_eq_getD]
        exact hheadD.symm
      · exact hxlast.symm
    · -- outSecond
      refine ⟨by simpa using hyslen.symm, by rw [hys_map]; exact hndsplit.2.1, ?_, ?_, ?_, hsegY3⟩
      · intro y hy
        refine hrB.2.2.1 y ?_
        rw [hys_map] at hy
        exact List.drop_subset n1 as hy
      · rw [hys_map, headD_eq_getD, getD_drop, Nat.add_zero]
      · exact hylast.symm
    · intro x hx
      have hxs' : x ≠ as.getD t 0 := fun he => d01 _ (he ▸ hsAns) hx
      have hxf : x ≠ as.getD (n - 1) 0 := fun he => d01 _ (he ▸ hfAns) hx
      rw [hDloc x hxs' hxf]
      exact hrel1 x hx
    · intro x hx
      have hxs' : x ≠ as.getD t 0 := fun he => d02 _ (he ▸ hsAns) hx
      have hxf : x ≠ as.getD (n - 1) 0 := fun he => d02 _ (he ▸ hfAns) hx
      rw [hDloc x hxs' hxf]
      exact hin2 x hx
    · intro b hb hb1 hb2
      have hbs : b ≠ as.getD t 0 := fun he => hb (he ▸ hsAns)
      have hbf : b ≠ as.getD (n - 1) 0 := fun he => hb (he ▸ hfAns)
      rw [hDloc b hbs hbf]
      exact houtB b hb1 hb2

/-! ## Iterated operations -/

theorem appendIter_ok :
    ∀ {ps : List (Addr × T)} {h : Heap T} {r : LinkedList} {ns : List (Addr × T)},
      isRing h r ns → (ps.map Prod.fst).Nodup →
      (∀ q ∈ ps, q.1 ≠ 0 ∧ q.1 < 2 ^ 64 ∧ h q.1 = none) →
      ∃ h' r', appendIter h r ps = some (h', r') ∧ isRing h' r' (ns ++ ps) ∧
        (∀ b, b ∉ ns.map Prod.fst → b ∉ ps.map Prod.fst → h' b = h b) := by
  intro ps
  induction ps with
  | nil =>
    intro h r ns hr _ _
    exact ⟨h, r, rfl, by simpa using hr, fun b _ _ => rfl⟩
  | cons p ps ih =>
    obtain ⟨a, v⟩ := p
    intro h r ns hr hnd hfr
    obtain ⟨ha0, hub, hfresh⟩ := hfr (a, v) (by simp)
    obtain ⟨h1, r1, happ, hr1, hloc1⟩ := append_ok hr ha0 hub hfresh
    have hanotps : a ∉ ps.map Prod.fst := by
      rw [List.map_cons, List.nodup_cons] at hnd
      exact hnd.1
    have hfr' : ∀ q ∈ ps, q.1 ≠ 0 ∧ q.1 < 2 ^ 64 ∧ h1 q.1 = none := by
      intro q hq
      obtain ⟨q0, qub, qfresh⟩ := hfr q (by simp [hq])
      refine ⟨q0, qub, ?_⟩
      have hqns : q.1 ∉ ns.map Prod.fst := isRing_not_mem hr qfresh
      have hqa : q.1 ≠ a := fun he => hanotps (he ▸ List.mem_map_of_mem Prod.fst hq)
      rw [hloc1 q.1 hqns hqa]
      exact qfresh
    obtain ⟨h', r', hiter, hr', hloc'⟩ :=
      ih hr1 (by rw [List.map_cons, List.nodup_cons] at hnd; exact hnd.2) hfr'
    refine ⟨h', r', ?_, ?_, ?_⟩
    · rw [show appendIter h r ((a, v) :: ps)
          = (LinkedList.append h r v (some a)).bind
            (fun x => appendIter x.2.1 x.2.2 ps) from rfl, happ]
      exact hiter
    · rw [List.append_assoc] at hr'
      simpa using hr'
    · intro b hbns hbps
      have hbps' : b ∉ ps.map Prod.fst := fun hm => hbps (by simp [hm])
      have hba : b ≠ a := fun he => hbps (by simp [he])
      have hbns1 : b ∉ (ns ++ [(a, v)]).map Prod.fst := by
        rw [List.map_append, List.mem_append]
        rintro (hc | hc)
        · exact hbns hc
        · exact hba (by simpa using hc)
      rw [hloc' b hbns1 hbps', hloc1 b hbns hba]

theorem popIter_ok :
    ∀ {ns : List (Addr × T)} {h : Heap T} {r : LinkedList}, isRing h r ns →
      ∃ h', popIter h r (ns.length + 1) =
        some (List.replicate ns.length true ++ [false], h', ⟨0, 0, 0⟩) := by
  intro ns
  induction ns with
  | nil =>
    intro h r hr
    obtain rfl := isRing_nil_iff.mp hr
    exact ⟨h, rfl⟩
  | cons p ps ih =>
    intro h r hr
    obtain ⟨h1, r1, hpop, hr1, -, -⟩ := pop_front_ok hr
    obtain ⟨h', hiter⟩ := ih hr1
    refine ⟨h', ?_⟩
    rw [show popIter h r ((p :: ps).length + 1)
        = (LinkedList.pop_front h r).bind (fun x =>
            (popIter x.2.1 x.2.2 (ps.length + 1)).bind (fun y =>
              some (x.1 :: y.1, y.2.1, y.2.2))) from rfl, hpop]
    show (popIter h1 r1 (ps.length + 1)).bind _ = _
    rw [hiter]
    simp [List.replicate_succ]

theorem popAppendIter_ok :
    ∀ {ks : List Addr} {h : Heap T} {r : LinkedList} {ns : List (Addr × T)},
      isRing h r ns → ns ≠ [] → ks.Nodup →
      (∀ a ∈ ks, a ≠ 0 ∧ a < 2 ^ 64 ∧ h a = none) →
      ∃ h' r' ms, popAppendIter h r ks = some (h', r') ∧ isRing h' r' ms ∧ ms ≠ [] ∧
        ms.map Prod.snd = (ns.map Prod.snd).rotate ks.length := by
  intro ks
  induction ks with
  | nil =>
    intro h r ns hr hne _ _
    exact ⟨h, r, ns, rfl, hr, hne, by simp⟩
  | cons a ks ih =>
    intro h r ns hr hne hnd hfr
    cases ns with
    | nil => exact absurd rfl hne
    | cons p ps =>
      obtain ⟨ha0, haub, hafresh⟩ := hfr a (by simp)
      have hfront : LinkedList.front h r = some p.2 := by
        rw [isRing_front hr]
        simp
      obtain ⟨h1, r1, hpop, hr1, hloc1, -⟩ := pop_front_ok hr
      have hfresh1 : h1 a = none := by
        rw [hloc1 a (isRing_not_mem hr hafresh)]
        exact hafresh
      obtain ⟨h2, r2, happ, hr2, hloc2⟩ := append_ok hr1 ha0 haub hfresh1
      have hfr2 : ∀ b ∈ ks, b ≠ 0 ∧ b < 2 ^ 64 ∧ h2 b = none := by
        intro b hb
        obtain ⟨b0, bub, bfresh⟩ := hfr b (by simp [hb])
        refine ⟨b0, bub, ?_⟩
        have hbns : b ∉ (p :: ps).map Prod.fst := isRing_not_mem hr bfresh
        have hbps : b ∉ ps.map Prod.fst := fun hm => hbns (by simp [hm])
        have hba : b ≠ a := by
          rw [List.nodup_cons] at hnd
          exact fun he => hnd.1 (he ▸ hb)
        rw [hloc2 b hbps hba, hloc1 b hbns]
        exact bfresh
      obtain ⟨h', r', ms, hiter, hr', hmne, hms⟩ :=
        ih hr2 (by simp) (List.nodup_cons.mp hnd).2 hfr2
      refine ⟨h', r', ms, ?_, hr', hmne, ?_⟩
      · rw [show popAppendIter h r (a :: ks)
            = (popFrontThenAppend h r a).bind (fun x => popAppendIter x.1 x.2 ks) from rfl,
          show popFrontThenAppend h r a
            = (LinkedList.front h r).bind (fun v =>
                (LinkedList.pop_front h r).bind (fun x =>
                  (LinkedList.append x.2.1 x.2.2 v (some a)).bind (fun y =>
                    some (y.2.1, y.2.2)))) from rfl,
          hfront]
        show ((LinkedList.pop_front h r).bind _).bind _ = _
        rw [hpop]
        show ((LinkedList.append h1 r1 p.2 (some a)).bind _).bind _ = _
        rw [happ]
        exact hiter
      · have hstep : ((p :: ps).map Prod.snd).rotate ((a :: ks).length)
            = ((ps.map Prod.snd) ++ [p.2]).rotate ks.length := by
          rw [List.length_cons, List.map_cons, List.rotate_cons_succ]
        rw [hms, hstep, List.map_append]
        rfl

/-! ## The console helper togglePauseById -/

theorem togglePauseLoop_notfound :
    ∀ (fuel : Nat) {h : Heap Robot} {r : LinkedList} {ms : List (Addr × Robot)} {tid : Int},
      isRing h r ms → ms ≠ [] → (∀ p ∈ ms, p.2.id ≠ tid) →
      ∃ rf, rotIter h r fuel = some rf ∧
        togglePauseLoop h r tid fuel = some (false, h, rf) := by
  intro fuel
  induction fuel with
  | zero =>
    intro h r ms tid _ _ _
    exact ⟨r, rfl, rfl⟩
  | succ f ih =>
    intro h r ms tid hr hne hid
    cases ms with
    | nil => exact absurd rfl hne
    | cons p ps =>
      obtain ⟨hxh, n, hd, hdata, -⟩ := isRing_seg hr
      have hidne : ¬(n.data.id = tid) := by
        rw [hdata]
        exact hid p (by simp)
      obtain ⟨r1, hrot, hr1, -⟩ := rotate_ok hr
      have hne1 : (p :: ps).rotate 1 ≠ [] := by
        intro habs
        have hlr := List.length_rotate (p :: ps) 1
        rw [habs] at hlr
        simp at hlr
      have hid1 : ∀ q ∈ (p :: ps).rotate 1, q.2.id ≠ tid :=
        fun q hq => hid q (List.mem_rotate.mp hq)
      obtain ⟨rf, hiter, hloop⟩ := ih hr1 hne1 hid1
      refine ⟨rf, ?_, ?_⟩
      · simp only [rotIter, hrot, Option.bind_eq_bind, Option.some_bind]
        exact hiter
      · simp only [togglePauseLoop, hd, Option.bind_eq_bind, Option.some_bind,
          if_neg hidne, hrot]
        exact hloop

theorem togglePauseById_notfound {h : Heap Robot} {r : LinkedList}
    {ms : List (Addr × Robot)} {tid : Int}
    (hr : isRing h r ms) (hid : ∀ p ∈ ms, p.2.id ≠ tid) :
    togglePauseById h r tid = some (false, h, r) := by
  cases hms : ms with
  | nil =>
    obtain rfl := isRing_nil_iff.mp (hms ▸ hr)
    rfl
  | cons p ps =>
    subst hms
    have hsz : ¬(r.size = 0) := by
      rw [LinkedList.size, hr.1]
      simp
    obtain ⟨rf, hiter, hloop⟩ := togglePauseLoop_notfound r.size hr (by simp) hid
    have hlen : r.size = (p :: ps).length := hr.1
    obtain ⟨rf', hiter', hrf', -⟩ := rotIter_ok ((p :: ps).length) hr
    have hrfr : rf = r := by
      rw [hlen] at hiter
      rw [hiter] at hiter'
      have heq : rf = rf' := Option.some.inj hiter'
      rw [heq]
      refine isRing_unique ?_ hr
      rw [List.rotate_length] at hrf'
      exact hrf'
    rw [togglePauseById, if_neg hsz, hloop, hrfr]

/-! ## Claim theorems -/

/-- C1: for every ring of `n` elements, `splitIntoTwo(outFirst, outSecond)`
leaves the receiver empty, gives `outFirst` exactly `⌈n/2⌉` elements and
`outSecond` exactly `⌊n/2⌋`, the concatenation of `outFirst`'s and
`outSecond`'s head-to-tail sequences reproduces the receiver's original
head-to-tail sequence (`outFirst` holding the first half in traversal order
from the original head), and both output rings' prior contents are released
first. -/
theorem C1_splitIntoTwo_spec {T : Type} {h : Heap T} {r r1 r2 : LinkedList}
    {ns ns1 ns2 : List (Addr × T)}
    (hr : isRing h r ns) (hr1 : isRing h r1 ns1) (hr2 : isRing h r2 ns2)
    (d01 : ∀ x ∈ ns.map Prod.fst, x ∉ ns1.map Prod.fst)
    (d02 : ∀ x ∈ ns.map Prod.fst, x ∉ ns2.map Prod.fst)
    (d12 : ∀ x ∈ ns1.map Prod.fst, x ∉ ns2.map Prod.fst) :
    ∃ h' f s, LinkedList.splitIntoTwo h r r1 r2 = some (h', ⟨0, 0, 0⟩, f, s) ∧
      f.sz_ = (ns.length + 1) / 2 ∧ s.sz_ = ns.length / 2 ∧
      isRing h' f (ns.take ((ns.length + 1) / 2)) ∧
      isRing h' s (ns.drop ((ns.length + 1) / 2)) ∧
      listOf h' f = some ((ns.map Prod.snd).take ((ns.length + 1) / 2)) ∧
      listOf h' s = some ((ns.map Prod.snd).drop ((ns.length + 1) / 2)) ∧
      (ns.map Prod.snd).take ((ns.length + 1) / 2) ++
        (ns.map Prod.snd).drop ((ns.length + 1) / 2) = ns.map Prod.snd ∧
      (∀ x ∈ ns1.map Prod.fst, h' x = none) ∧
      (∀ x ∈ ns2.map Prod.fst, h' x = none) := by
  obtain ⟨h', f, s, hrun, hf, hs, hfsz, hssz, hrel1, hrel2, -⟩ :=
    splitIntoTwo_ok hr hr1 hr2 d01 d02 d12
  refine ⟨h', f, s, hrun, hfsz, by omega, hf, hs, ?_, ?_,
    List.take_append_drop _ _, hrel1, hrel2⟩
  · rw [isRing_listOf hf, List.map_take]
  · rw [isRing_listOf hs, List.map_drop]

/-- Witness for C1 on the concrete three-node ring: outFirst gets the first
two elements, outSecond the last one, and the receiver ends empty. -/
theorem C1_witness :
    ∃ h' f s, LinkedList.splitIntoTwo hw3 rw3 LinkedList.new LinkedList.new
        = some (h', ⟨0, 0, 0⟩, f, s) ∧
      f.sz_ = (nsw3.length + 1) / 2 ∧ s.sz_ = nsw3.length / 2 ∧
      isRing h' f (nsw3.take ((nsw3.length + 1) / 2)) ∧
      isRing h' s (nsw3.drop ((nsw3.length + 1) / 2)) ∧
      listOf h' f = some ((nsw3.map Prod.snd).take ((nsw3.length + 1) / 2)) ∧
      listOf h' s = some ((nsw3.map Prod.snd).drop ((nsw3.length + 1) / 2)) ∧
      (nsw3.map Prod.snd).take ((nsw3.length + 1) / 2) ++
        (nsw3.map Prod.snd).drop ((nsw3.length + 1) / 2) = nsw3.map Prod.snd ∧
      (∀ x ∈ ([] : List (Addr × Nat)).map Prod.fst, h' x = none) ∧
      (∀ x ∈ ([] : List (Addr × Nat)).map Prod.fst, h' x = none) :=
  C1_splitIntoTwo_spec (by decide : isRing hw3 rw3 nsw3)
    (by decide : isRing hw3 LinkedList.new [])
    (by decide : isRing hw3 LinkedList.new [])
    (by decide) (by decide) (by decide)

/-- C2: `receiver.mergeWith(other)` leaves `other` empty and the receiver
holding `size + other.size` elements, whose head-to-tail sequence is the
receiver's original sequence followed by `other`'s; an empty receiver adopts
`other`'s nodes wholesale, and an empty `other` makes the call a no-op. -/
theorem C2_mergeWith_spec {T : Type} {h : Heap T} {r o : LinkedList}
    {ns ms : List (Addr × T)}
    (hr : isRing h r ns) (ho : isRing h o ms)
    (hdisj : ∀ x ∈ ns.map Prod.fst, x ∉ ms.map Prod.fst) :
    ∃ h' r', LinkedList.mergeWith h r o = some (h', r', ⟨0, 0, 0⟩) ∧
      isRing h' r' (ns ++ ms) ∧ r'.sz_ = ns.length + ms.length ∧
      listOf h' r' = some (ns.map Prod.snd ++ ms.map Prod.snd) ∧
      (ms = [] → h' = h ∧ r' = r) ∧
      (ns = [] → h' = h ∧ r' = ⟨o.head_, o.tail_, o.sz_⟩) := by
  obtain ⟨h', r', hrun, hring, hsz, -, hnop, hadopt⟩ := mergeWith_ok hr ho hdisj
  refine ⟨h', r', hrun, hring, hsz, ?_, hnop, hadopt⟩
  rw [isRing_listOf hring, List.map_append]

/-- Witness for C2: merging the one-node ring at address 5 into the two-node
ring at addresses 1, 2 inside the same heap. -/
theorem C2_witness :
    ∃ h' r', LinkedList.mergeWith hwm rwmA rwmB = some (h', r', ⟨0, 0, 0⟩) ∧
      isRing h' r' ([(1, 10), (2, 20)] ++ [(5, 50)]) ∧
      r'.sz_ = ([(1, 10), (2, 20)] : List (Addr × Nat)).length +
        ([(5, 50)] : List (Addr × Nat)).length ∧
      listOf h' r' = some (([(1, 10), (2, 20)] : List (Addr × Nat)).map Prod.snd ++
        ([(5, 50)] : List (Addr × Nat)).map Prod.snd) ∧
      (([(5, 50)] : List (Addr × Nat)) = [] → h' = hwm ∧ r' = rwmA) ∧
      (([(1, 10), (2, 20)] : List (Addr × Nat)) = [] →
        h' = hwm ∧ r' = ⟨rwmB.head_, rwmB.tail_, rwmB.sz_⟩) :=
  C2_mergeWith_spec (by decide) (by decide) (by decide)

/-- C3: merge is a left inverse of split with respect to element order --
splitting and then merging `outFirst` with `outSecond` yields a ring whose
head-to-tail sequence equals the original sequence exactly, and the
merged-from ring ends with size 0. -/
theorem C3_merge_leftInverse_split {T : Type} {h : Heap T} {r r1 r2 : LinkedList}
    {ns ns1 ns2 : List (Addr × T)}
    (hr : isRing h r ns) (hr1 : isRing h r1 ns1) (hr2 : isRing h r2 ns2)
    (d01 : ∀ x ∈ ns.map Prod.fst, x ∉ ns1.map Prod.fst)
    (d02 : ∀ x ∈ ns.map Prod.fst, x ∉ ns2.map Prod.fst)
    (d12 : ∀ x ∈ ns1.map Prod.fst, x ∉ ns2.map Prod.fst) :
    ∃ h' f s h'' m o', LinkedList.splitIntoTwo h r r1 r2 = some (h', ⟨0, 0, 0⟩, f, s) ∧
      LinkedList.mergeWith h' f s = some (h'', m, o') ∧ o'.sz_ = 0 ∧
      isRing h'' m ns ∧ listOf h'' m = some (ns.map Prod.snd) := by
  obtain ⟨h', f, s, hrun, hf, hs, -, -, -, -, -⟩ :=
    splitIntoTwo_ok hr hr1 hr2 d01 d02 d12
  have hdisj : ∀ x ∈ (ns.take ((ns.length + 1) / 2)).map Prod.fst,
      x ∉ (ns.drop ((ns.length + 1) / 2)).map Prod.fst := by
    have hnd2 : ((ns.map Prod.fst).take ((ns.length + 1) / 2)).Disjoint
        ((ns.map Prod.fst).drop ((ns.length + 1) / 2)) := by
      have hnd := hr.2.1
      rw [← List.take_append_drop ((ns.length + 1) / 2) (ns.map Prod.fst),
        List.nodup_append] at hnd
      exact hnd.2.2
    intro x hx hxd
    rw [List.map_take] at hx
    rw [List.map_drop] at hxd
    exact hnd2 hx hxd
  obtain ⟨h'', m, hmrun, hmring, -, -, -, -⟩ := mergeWith_ok hf hs hdisj
  rw [List.take_append_drop] at hmring
  exact ⟨h', f, s, h'', m, ⟨0, 0, 0⟩, hrun, hmrun, rfl, hmring,
    by rw [isRing_listOf hmring]⟩

/-- Witness for C3 on the concrete three-node ring. -/
theorem C3_witness :
    ∃ h' f s h'' m o', LinkedList.splitIntoTwo hw3 rw3 LinkedList.new LinkedList.new
        = some (h', ⟨0, 0, 0⟩, f, s) ∧
      LinkedList.mergeWith h' f s = some (h'', m, o') ∧ o'.sz_ = 0 ∧
      isRing h'' m nsw3 ∧ listOf h'' m = some (nsw3.map Prod.snd) :=
  C3_merge_leftInverse_split (by decide : isRing hw3 rw3 nsw3)
    (by decide : isRing hw3 LinkedList.new [])
    (by decide : isRing hw3 LinkedList.new [])
    (by decide) (by decide) (by decide)

/-- C5: `pop_front` returns `false` and leaves the ring unchanged exactly on
the empty ring; otherwise it returns `true`, decreases the size by one and
leaves the original sequence minus its first element (becoming empty from a
single node, otherwise advancing the head to the removed node's successor
with the ring re-closed); consequently after `n` appends, `n` pops return
`true` and one more returns `false`. -/
theorem C5_pop_front_spec {T : Type} :
    (∀ (h : Heap T) (r : LinkedList), isRing h r [] →
      LinkedList.pop_front h r = some (false, h, r)) ∧
    (∀ (h : Heap T) (r : LinkedList) (p : Addr × T) (ps : List (Addr × T)),
      isRing h r (p :: ps) →
      ∃ h' r', LinkedList.pop_front h r = some (true, h', r') ∧
        r'.sz_ = (p :: ps).length - 1 ∧ isRing h' r' ps ∧
        listOf h' r' = some (ps.map Prod.snd) ∧
        (ps = [] → r' = ⟨0, 0, 0⟩) ∧
        (ps ≠ [] → r'.head_ = (ps.map Prod.fst).headD 0)) ∧
    (∀ (ps : List (Addr × T)), (ps.map Prod.fst).Nodup →
      (∀ q ∈ ps, q.1 ≠ 0 ∧ q.1 < 2 ^ 64) →
      ∃ h1 r1 h2, appendIter (Heap.empty T) LinkedList.new ps = some (h1, r1) ∧
        popIter h1 r1 (ps.length + 1) =
          some (List.replicate ps.length true ++ [false], h2, ⟨0, 0, 0⟩)) := by
  refine ⟨fun h r hr => pop_front_nil hr, ?_, ?_⟩
  · intro h r p ps hr
    obtain ⟨h', r', hrun, hr', -, -⟩ := pop_front_ok hr
    refine ⟨h', r', hrun, by simpa using hr'.1, hr', isRing_listOf hr', ?_, ?_⟩
    · intro hps
      subst hps
      exact isRing_nil_iff.mp hr'
    · intro _
      exact hr'.2.2.2.1
  · intro ps hnd hfr
    have hremp : isRing (Heap.empty T) LinkedList.new [] := isRing_nil_iff.mpr rfl
    obtain ⟨h1, r1, hiter, hr1, -⟩ := appendIter_ok hremp hnd
      (fun q hq => ⟨(hfr q hq).1, (hfr q hq).2, rfl⟩)
    rw [List.nil_append] at hr1
    obtain ⟨h2, hpops⟩ := popIter_ok hr1
    exact ⟨h1, r1, h2, hiter, hpops⟩

/-- Witness for C5: the empty-ring pop, a concrete pop on the three-node ring,
and the append-then-pop scenario on two elements. -/
theorem C5_witness :
    LinkedList.pop_front (Heap.empty Nat) LinkedList.new
        = some (false, Heap.empty Nat, LinkedList.new) ∧
    (∃ h' r', LinkedList.pop_front hw3 rw3 = some (true, h', r') ∧
      r'.sz_ = ((1, 10) :: [(2, 20), (3, 30)] : List (Addr × Nat)).length - 1 ∧
      isRing h' r' [(2, 20), (3, 30)] ∧
      listOf h' r' = some (([(2, 20), (3, 30)] : List (Addr × Nat)).map Prod.snd) ∧
      (([(2, 20), (3, 30)] : List (Addr × Nat)) = [] → r' = ⟨0, 0, 0⟩) ∧
      (([(2, 20), (3, 30)] : List (Addr × Nat)) ≠ [] →
        r'.head_ = (([(2, 20), (3, 30)] : List (Addr × Nat)).map Prod.fst).headD 0)) ∧
    (∃ h1 r1 h2, appendIter (Heap.empty Nat) LinkedList.new [(1, 10), (2, 20)]
        = some (h1, r1) ∧
      popIter h1 r1 (([(1, 10), (2, 20)] : List (Addr × Nat)).length + 1) =
        some (List.replicate ([(1, 10), (2, 20)] : List (Addr × Nat)).length true
          ++ [false], h2, ⟨0, 0, 0⟩)) :=
  ⟨C5_pop_front_spec.1 (Heap.empty Nat) LinkedList.new (by decide),
    C5_pop_front_spec.2.1 hw3 rw3 (1, 10) [(2, 20), (3, 30)] (by decide),
    C5_pop_front_spec.2.2 [(1, 10), (2, 20)] (by decide) (by decide)⟩

/-- C6: `rotate` is a no-op on rings of size 0 or 1; on size at least 2 it
advances `head_` and `tail_` one step each without changing the size; and
applying `rotate` k times yields the same element sequence and the same
front element as k rounds of `pop_front` followed by `append` of the popped
front element. -/
theorem C6_rotate_spec {T : Type} :
    (∀ (h : Heap T) (r : LinkedList) (ns : List (Addr × T)),
      isRing h r ns → ns.length ≤ 1 → LinkedList.rotate h r = some r) ∧
    (∀ (h : Heap T) (r : LinkedList) (ns : List (Addr × T)),
      isRing h r ns → 2 ≤ ns.length →
      ∃ r' hn tn, LinkedList.rotate h r = some r' ∧
        deref h r.head_ = some hn ∧ deref h r.tail_ = some tn ∧
        r'.head_ = hn.next ∧ r'.tail_ = tn.next ∧ r'.sz_ = r.sz_) ∧
    (∀ (h : Heap T) (r : LinkedList) (ns : List (Addr × T)) (ks : List Addr),
      isRing h r ns → ns ≠ [] → ks.Nodup →
      (∀ a ∈ ks, a ≠ 0 ∧ a < 2 ^ 64 ∧ h a = none) →
      ∃ rrot h' r' ms, rotIter h r ks.length = some rrot ∧ rrot.sz_ = r.sz_ ∧
        popAppendIter h r ks = some (h', r') ∧ isRing h' r' ms ∧
        listOf h rrot = some ((ns.map Prod.snd).rotate ks.length) ∧
        listOf h' r' = some ((ns.map Prod.snd).rotate ks.length) ∧
        LinkedList.front h rrot = LinkedList.front h' r') := by
  refine ⟨?_, ?_, ?_⟩
  · intro h r ns hr hlen
    cases ns with
    | nil =>
      obtain rfl := isRing_nil_iff.mp hr
      simp [LinkedList.rotate]
    | cons p ps =>
      cases ps with
      | cons q qs => simp at hlen
      | nil =>
        obtain ⟨x, d⟩ := p
        obtain ⟨hxh, -, -, -, -⟩ := isRing_seg hr
        have hht : r.head_ = r.tail_ := by
          rw [← hxh, hr.2.2.2.2.1]
          simp
        simp [LinkedList.rotate, hht]
  · intro h r ns hr hlen
    rcases ns with _ | ⟨p, _ | ⟨q, rest⟩⟩
    · simp at hlen
    · simp at hlen
    obtain ⟨x, d⟩ := p
    obtain ⟨hxh, n, hd, hdata, hrest⟩ := isRing_seg hr
    obtain ⟨r', hrot, hr', hsz⟩ := rotate_ok hr
    have hrotlist : ((x, d) :: q :: rest).rotate 1 = (q :: rest) ++ [(x, d)] := by
      rw [List.rotate_cons_succ, List.rotate_zero]
    rw [hrotlist] at hr'
    have hqn : n.next = q.1 := by
      have := segFrom_first hrest (by simp)
      simpa using this.symm
    obtain ⟨tn, htn, htnext⟩ := segFrom_getD_last (isRing_seg hr) (by simp)
    have htaddr : (((x, d) :: q :: rest).map Prod.fst).getD
        (((x, d) :: q :: rest).length - 1) 0 = r.tail_ := by
      rw [show ((x, d) :: q :: rest).length - 1
          = ((((x, d) :: q :: rest)).map Prod.fst).length - 1 by simp,
        ← getLastD_eq_getD, ← hr.2.2.2.2.1]
    rw [htaddr] at htn
    refine ⟨r', n, tn, hrot, hd, htn, ?_, ?_, hsz⟩
    · rw [hr'.2.2.2.1, List.map_append, headD_append_left _ _ _ (by simp), hqn]
      rfl
    · rw [hr'.2.2.2.2.1, List.map_append, getLastD_append_right _ _ _ (by simp), htnext,
        ← hxh]
      simp [List.getLastD_cons]
  · intro h r ns ks hr hne hnd hfr
    obtain ⟨rrot, hriter, hrring, hrsz⟩ := rotIter_ok ks.length hr
    obtain ⟨h', r', ms, hpiter, hr', hmne, hms⟩ := popAppendIter_ok hr hne hnd hfr
    refine ⟨rrot, h', r', ms, hriter, hrsz, hpiter, hr', ?_, ?_, ?_⟩
    · rw [isRing_listOf hrring, List.map_rotate]
    · rw [isRing_listOf hr', hms]
    · rw [isRing_front hrring, isRing_front hr', hms, List.map_rotate]

/-- Witness for C6: the one-node no-op, the concrete head/tail advancement on
the three-node ring, and one rotate-versus-pop+append round. -/
theorem C6_witness :
    LinkedList.rotate hwm rwmB = some rwmB ∧
    (∃ r' hn tn, LinkedList.rotate hw3 rw3 = some r' ∧
      deref hw3 rw3.head_ = some hn ∧ deref hw3 rw3.tail_ = some tn ∧
      r'.head_ = hn.next ∧ r'.tail_ = tn.next ∧ r'.sz_ = rw3.sz_) ∧
    (∃ rrot h' r' ms, rotIter hw3 rw3 ([7] : List Addr).length = some rrot ∧
      rrot.sz_ = rw3.sz_ ∧
      popAppendIter hw3 rw3 [7] = some (h', r') ∧ isRing h' r' ms ∧
      listOf hw3 rrot = some ((nsw3.map Prod.snd).rotate ([7] : List Addr).length) ∧
      listOf h' r' = some ((nsw3.map Prod.snd).rotate ([7] : List Addr).length) ∧
      LinkedList.front hw3 rrot = LinkedList.front h' r') :=
  ⟨C6_rotate_spec.1 hwm rwmB [(5, 50)] (by decide) (by decide),
    C6_rotate_spec.2.1 hw3 rw3 nsw3 (by decide) (by decide),
    C6_rotate_spec.2.2 hw3 rw3 nsw3 [7] (by decide) (by decide) (by decide) (by decide)⟩

/-- C7: `display` renders exactly `sz_` elements in head-to-tail order from
`head_` as the line `[e1 -> e2 -> ... -> en] (circular)` for a non-empty
ring and `[] (empty)` for an empty one; appending 1,2,3,4,5 to an empty ring
makes `display` yield `[1 -> 2 -> 3 -> 4 -> 5] (circular)`. -/
theorem C7_display_spec :
    (∀ (T : Type) (f : T → String) (h : Heap T) (r : LinkedList) (ns : List (Addr × T)),
      isRing h r ns → LinkedList.display f h r = some (displaySpec f (ns.map Prod.snd))) ∧
    (∀ (T : Type) (f : T → String) (h : Heap T) (r : LinkedList), isRing h r [] →
      LinkedList.display f h r = some "[] (empty)\n") ∧
    (∃ h1 r1, appendIter (Heap.empty Nat) LinkedList.new
        [(1, 1), (2, 2), (3, 3), (4, 4), (5, 5)] = some (h1, r1) ∧
      LinkedList.display toString h1 r1 = some "[1 -> 2 -> 3 -> 4 -> 5] (circular)\n") := by
  refine ⟨fun T f h r ns hr => isRing_display f hr, ?_, ?_⟩
  · intro T f h r hr
    rw [isRing_display f hr]
    rfl
  · have hremp : isRing (Heap.empty Nat) LinkedList.new [] := isRing_nil_iff.mpr rfl
    obtain ⟨h1, r1, hiter, hr1, -⟩ :=
      appendIter_ok hremp
        (by decide :
          (([(1, 1), (2, 2), (3, 3), (4, 4), (5, 5)] : List (Addr × Nat)).map
            Prod.fst).Nodup)
        (by decide)
    rw [List.nil_append] at hr1
    refine ⟨h1, r1, hiter, ?_⟩
    rw [isRing_display toString hr1]
    rfl

/-- Witness for C7: the general rendering applied to the concrete three-node
ring and to a concrete empty ring. -/
theorem C7_witness :
    LinkedList.display toString hw3 rw3 = some (displaySpec toString (nsw3.map Prod.snd)) ∧
    LinkedList.display toString (Heap.empty Nat) LinkedList.new = some "[] (empty)\n" :=
  ⟨C7_display_spec.1 Nat toString hw3 rw3 nsw3 (by decide),
    C7_display_spec.2.1 Nat toString (Heap.empty Nat) LinkedList.new (by decide)⟩

/-- C8: under the precondition that the ring is non-empty, `front` succeeds
and returns the logically-first element, the one a head-to-tail traversal
visits first; the operation performs no emptiness check of its own, so on an
empty ring the head access dereferences null. -/
theorem C8_front_contract {T : Type} :
    (∀ (h : Heap T) (r : LinkedList) (ns : List (Addr × T)),
      isRing h r ns → ns ≠ [] →
      ∃ v, LinkedList.front h r = some v ∧ listOf h r = some (ns.map Prod.snd) ∧
        (ns.map Prod.snd).head? = some v) ∧
    (∀ (h : Heap T) (r : LinkedList), isRing h r [] → LinkedList.front h r = none) := by
  constructor
  · intro h r ns hr hne
    cases ns with
    | nil => exact absurd rfl hne
    | cons p ps =>
      refine ⟨p.2, ?_, isRing_listOf hr, by simp⟩
      rw [isRing_front hr]
      simp
  · intro h r hr
    rw [isRing_front hr]
    rfl

/-- Witness for C8: `front` on the concrete three-node ring and on an empty
ring. -/
theorem C8_witness :
    (∃ v, LinkedList.front hw3 rw3 = some v ∧ listOf hw3 rw3 = some (nsw3.map Prod.snd) ∧
      (nsw3.map Prod.snd).head? = some v) ∧
    LinkedList.front (Heap.empty Nat) LinkedList.new = none :=
  ⟨C8_front_contract.1 hw3 rw3 nsw3 (by decide) (by decide),
    C8_front_contract.2 (Heap.empty Nat) LinkedList.new (by decide)⟩

/-- C9: `append` is atomic with respect to allocation failure -- if the `new
Node` fails, the heap and all fields are exactly as before the call; on
success the size grows by one, the new node becomes the tail, and an empty
ring gains a single self-linked node that is both head and tail. -/
theorem C9_append_atomic {T : Type} :
    (∀ (h : Heap T) (r : LinkedList) (v : T),
      LinkedList.append h r v none = some (false, h, r)) ∧
    (∀ (h : Heap T) (r : LinkedList) (ns : List (Addr × T)) (v : T) (a : Addr),
      isRing h r ns → a ≠ 0 → a < 2 ^ 64 → h a = none →
      ∃ h' r', LinkedList.append h r v (some a) = some (true, h', r') ∧
        r'.sz_ = ns.length + 1 ∧ r'.tail_ = a ∧ isRing h' r' (ns ++ [(a, v)]) ∧
        (ns = [] → r' = ⟨a, a, 1⟩ ∧ h' a = some ⟨v, a⟩)) := by
  refine ⟨fun h r v => rfl, ?_⟩
  intro h r ns v a hr ha0 hub hfresh
  obtain ⟨h', r', hrun, hr', -⟩ := append_ok hr ha0 hub hfresh
  refine ⟨h', r', hrun, by simpa using hr'.1, ?_, hr', ?_⟩
  · rw [hr'.2.2.2.2.1, List.map_append, getLastD_append_right _ _ _ (by simp)]
    rfl
  · intro hns
    subst hns
    obtain ⟨hxh, n, hd, hdata, hrest⟩ := isRing_seg hr'
    have hhead : r'.head_ = a := by
      rw [hr'.2.2.2.1]
      rfl
    have htail : r'.tail_ = a := by
      rw [hr'.2.2.2.2.1]
      rfl
    have hsz : r'.sz_ = 1 := by simpa using hr'.1
    have hnext : n.next = r'.head_ := hrest
    constructor
    · cases r'
      simp only at hhead htail hsz
      simp [hhead, htail, hsz]
    · have := (deref_eq_some.mp hd).2
      rw [hhead] at this
      have hn : n = ⟨v, a⟩ := by
        cases n
        simp only at hdata hnext
        rw [hhead] at hnext
        simp [hdata, hnext]
      rw [← hn]
      exact this

/-- Witness for C9: failed allocation leaves the concrete ring untouched;
a successful append at address 7 extends it, and one into an empty ring
yields the self-linked single node. -/
theorem C9_witness :
    LinkedList.append hw3 rw3 (40 : Nat) none = some (false, hw3, rw3) ∧
    (∃ h' r', LinkedList.append hw3 rw3 (40 : Nat) (some 7) = some (true, h', r') ∧
      r'.sz_ = nsw3.length + 1 ∧ r'.tail_ = 7 ∧ isRing h' r' (nsw3 ++ [(7, 40)]) ∧
      (nsw3 = [] → r' = ⟨7, 7, 1⟩ ∧ h' 7 = some ⟨40, 7⟩)) ∧
    (∃ h' r', LinkedList.append (Heap.empty Nat) LinkedList.new (40 : Nat) (some 7)
        = some (true, h', r') ∧
      r'.sz_ = ([] : List (Addr × Nat)).length + 1 ∧ r'.tail_ = 7 ∧
      isRing h' r' (([] : List (Addr × Nat)) ++ [(7, 40)]) ∧
      (([] : List (Addr × Nat)) = [] → r' = ⟨7, 7, 1⟩ ∧ h' 7 = some ⟨40, 7⟩)) :=
  ⟨C9_append_atomic.1 hw3 rw3 40,
    C9_append_atomic.2 hw3 rw3 nsw3 40 7 (by decide) (by decide) (by decide) (by decide),
    C9_append_atomic.2 (Heap.empty Nat) LinkedList.new [] 40 7 (by decide) (by decide)
      (by decide) (by decide)⟩

/-- C10: applying `rotate` exactly `size()` times returns the ring to its
exact original state (same `head_`, same `tail_`, same size, over an
unchanged heap), and `togglePauseById` relies on this: when the searched-for
id is not present it leaves the ring's fields (in particular the logical
head) unchanged. -/
theorem C10_rotate_order {T : Type} :
    (∀ (h : Heap T) (r : LinkedList) (ns : List (Addr × T)),
      isRing h r ns → rotIter h r r.sz_ = some r) ∧
    (∀ (h : Heap Robot) (r : LinkedList) (ms : List (Addr × Robot)) (tid : Int),
      isRing h r ms → (∀ p ∈ ms, p.2.id ≠ tid) →
      togglePauseById h r tid = some (false, h, r)) := by
  constructor
  · intro h r ns hr
    obtain ⟨r', hiter, hr', -⟩ := rotIter_ok ns.length hr
    rw [List.rotate_length] at hr'
    rw [hr.1, hiter, isRing_unique hr' hr]
  · intro h r ms tid hr hid
    exact togglePauseById_notfound hr hid

/-- Witness for C10: three rotations return the three-node ring to its exact
state, and a toggle with an absent id leaves the robot ring untouched. -/
theorem C10_witness :
    rotIter hw3 rw3 rw3.sz_ = some rw3 ∧
    togglePauseById hwr rwr 99 = some (false, hwr, rwr) :=
  ⟨(C10_rotate_order (T := Nat)).1 hw3 rw3 nsw3 (by decide),
    (C10_rotate_order (T := Nat)).2 hwr rwr nswr 99 (by decide) (by decide)⟩
